import Mathlib

/-!
Verification of the millet SML analyzer against its specification.

Each namespace shallowly embeds one part of the implementation:

* `Statics`   : crates/statics (unify.rs, dec.rs) — unification, occurs check,
  overload fusion, generalization.
* `Eqck`      : crates/sml-statics/src/equality.rs — equality admission.
* `Facade`    : crates/analysis/src/lib.rs — the analysis facade.
* `Dyn`       : crates/sml-dynamics/src/step.rs — the step evaluator.
* `CmP`       : crates/cm-syntax/src/parse.rs — CM group description parsing.
* `InputR`    : crates/input/src/root.rs — root group discovery.
* `SymT`      : crates/sml-statics-types/src/sym.rs — symbol generation markers.

Identifier-like index types of the source (meta type variables, symbols,
record labels, path ids) are opaque ordered index types there and are
modelled as `Nat`.  Functions of the source whose Rust recursion runs
through the mutable substitution (and is hence not structural) are embedded
with an explicit fuel parameter; fuel exhaustion is a distinguished outcome
(`Option.none` or a distinguished error) that is distinct from every result
the Rust code can produce, and results are monotone in fuel, so every
theorem about a produced result is a theorem about the Rust function.
Rust panics (unreachable!/assert!) are likewise mapped to a distinguished
error value.
-/

namespace Statics

/-- Record labels.  The source key type is hir::Lab (a name or a numeric
label) with its derived total order, used only as an ordered key of the
BTreeMap of record rows; it is modelled as Nat. -/
abbrev Lab := Nat

/-- Semantic types, from crates/statics/src/types.rs (used by unify.rs and
dec.rs; the record rows BTreeMap is represented as its canonical
strictly-key-sorted association list). -/
inductive Ty where
  | none
  | boundVar (bv : Nat)
  | metaVar (mv : Nat)
  | fixedVar (fv : Nat)
  | record (rows : List (Lab × Ty))
  | con (args : List Ty) (sym : Nat)
  | fn (param res : Ty)

/-- Basic overload classes, per the spec: an overload class is one of
int, real, word, string, char, or a composite union thereof. -/
inductive BasicOverload where
  | int | real | word | string | char
  deriving DecidableEq, Repr

/-- Modelled from the spec: the symbol each basic overload class resolves
to, using the special symbol indices of sym.rs (INT = 1, WORD = 2,
REAL = 3, CHAR = 4, STRING = 5). -/
def BasicOverload.toSym : BasicOverload → Nat
  | .int => 1
  | .word => 2
  | .real => 3
  | .char => 4
  | .string => 5

/-- Modelled from the spec: overload classes appear in two forms, Basic and
Composite (a union of basics); each resolves to a non-empty list of syms
(crates/statics/src/types.rs is not part of the sources). -/
inductive Overload where
  | basic (b : BasicOverload)
  | composite (bs : List BasicOverload)
  deriving DecidableEq, Repr

/-- Modelled from the spec: the list of syms an overload class resolves to. -/
def Overload.to_syms : Overload → List Nat
  | .basic b => [b.toSym]
  | .composite bs => bs.map BasicOverload.toSym

/-- Kinds a not-yet-solved meta type variable can be constrained by in the
old statics crate (unify.rs matches exactly Equality and Overloaded). -/
inductive TyVarKind where
  | equality
  | overloaded (ov : Overload)

/-- An entry of the substitution: a solution or a kind constraint. -/
inductive SubstEntry where
  | solved (t : Ty)
  | kind (k : TyVarKind)

/-- The substitution: a finite map from meta variables to entries,
represented as an association list with unique keys (BTreeMap semantics:
only keyed lookup, insertion and solved-lookup are used by the sources). -/
abbrev Subst := List (Nat × SubstEntry)

/-- Keyed lookup in the substitution. -/
def Subst.get : Subst → Nat → Option SubstEntry
  | [], _ => Option.none
  | p :: rest, mv => if p.1 = mv then some p.2 else Subst.get rest mv

/-- Map insertion returning the previous entry, as Rust BTreeMap::insert. -/
def Subst.insert : Subst → Nat → SubstEntry → Option SubstEntry × Subst
  | [], mv, e => (Option.none, [(mv, e)])
  | p :: rest, mv, e =>
    if p.1 = mv then (some p.2, (mv, e) :: rest)
    else
      let r := Subst.insert rest mv e
      (r.1, p :: r.2)

/-- Lookup resolving only Solved entries, as the Subst::get used by
dec.rs (a meta variable with only a kind entry counts as unsolved). -/
def Subst.getSolved (s : Subst) (mv : Nat) : Option Ty :=
  match s.get mv with
  | some (.solved t) => some t
  | _ => Option.none

mutual

/-- Occurs check, from crates/statics/src/unify.rs (occurs). -/
def occurs (mv : Nat) : Ty → Bool
  | .none | .boundVar _ | .fixedVar _ => false
  | .metaVar mv2 => mv == mv2
  | .record rows => occursRows mv rows
  | .con args _ => occursList mv args
  | .fn param res => occurs mv param || occurs mv res

/-- Occurs check over the values of record rows. -/
def occursRows (mv : Nat) : List (Lab × Ty) → Bool
  | [] => false
  | p :: rest => occurs mv p.2 || occursRows mv rest

/-- Occurs check over a list of argument types. -/
def occursList (mv : Nat) : List Ty → Bool
  | [] => false
  | t :: rest => occurs mv t || occursList mv rest

end

mutual

/-- All meta variables occurring syntactically in a type, in traversal
order (an analysis device for stating normality of apply results). -/
def mvars : Ty → List Nat
  | .none | .boundVar _ | .fixedVar _ => []
  | .metaVar mv => [mv]
  | .record rows => mvarsRows rows
  | .con args _ => mvarsList args
  | .fn param res => mvars param ++ mvars res

/-- Meta variables of record row values. -/
def mvarsRows : List (Lab × Ty) → List Nat
  | [] => []
  | p :: rest => mvars p.2 ++ mvarsRows rest

/-- Meta variables of a list of types. -/
def mvarsList : List Ty → List Nat
  | [] => []
  | t :: rest => mvars t ++ mvarsList rest

end

mutual

/-- Whether a type contains no Ty::None anywhere. -/
def noneFree : Ty → Bool
  | .none => false
  | .boundVar _ | .metaVar _ | .fixedVar _ => true
  | .record rows => noneFreeRows rows
  | .con args _ => noneFreeList args
  | .fn param res => noneFree param && noneFree res

/-- None-freedom of record row values. -/
def noneFreeRows : List (Lab × Ty) → Bool
  | [] => true
  | p :: rest => noneFree p.2 && noneFreeRows rest

/-- None-freedom of a list of types. -/
def noneFreeList : List Ty → Bool
  | [] => true
  | t :: rest => noneFree t && noneFreeList rest

end

/-- Whether the labels of an association list are strictly increasing
(the canonical-form invariant of a BTreeMap represented as a list). -/
def sortedKeys : List (Lab × Ty) → Bool
  | [] => true
  | [_] => true
  | p :: q :: rest => decide (p.1 < q.1) && sortedKeys (q :: rest)

mutual

/-- Well-formedness: every record in the type has strictly-key-sorted rows,
mirroring the BTreeMap representation invariant of the Rust Ty. -/
def wf : Ty → Bool
  | .none | .boundVar _ | .metaVar _ | .fixedVar _ => true
  | .record rows => sortedKeys rows && wfRows rows
  | .con args _ => wfList args
  | .fn param res => wf param && wf res

/-- Well-formedness of record row values. -/
def wfRows : List (Lab × Ty) → Bool
  | [] => true
  | p :: rest => wf p.2 && wfRows rest

/-- Well-formedness of a list of types. -/
def wfList : List Ty → Bool
  | [] => true
  | t :: rest => wf t && wfList rest

end

mutual

/-- Substitution application, from crates/statics/src/util.rs (apply; that
file is not among the sources, the function is modelled from the spec
phrase "apply-before-compare" and its uses: solved meta variables are
replaced by their solutions, recursively).  The fuel only bounds the
resolution depth; Option.none reports fuel exhaustion. -/
def applyO : Nat → Subst → Ty → Option Ty
  | 0, _, _ => Option.none
  | k + 1, s, ty =>
    match ty with
    | .metaVar mv =>
      match s.get mv with
      | some (.solved t) => applyO k s t
      | _ => some ty
    | .none => some ty
    | .boundVar _ => some ty
    | .fixedVar _ => some ty
    | .record rows => (applyRowsO k s rows).map Ty.record
    | .con args sym => (applyListO k s args).map (fun l => Ty.con l sym)
    | .fn param res => do
        let p ← applyO k s param
        let r ← applyO k s res
        pure (Ty.fn p r)

/-- Substitution application to record row values. -/
def applyRowsO : Nat → Subst → List (Lab × Ty) → Option (List (Lab × Ty))
  | 0, _, _ => Option.none
  | _ + 1, _, [] => some []
  | k + 1, s, p :: rest => do
      let t ← applyO k s p.2
      let r ← applyRowsO k s rest
      pure ((p.1, t) :: r)

/-- Substitution application to a list of types. -/
def applyListO : Nat → Subst → List Ty → Option (List Ty)
  | 0, _, _ => Option.none
  | _ + 1, _, [] => some []
  | k + 1, s, t :: rest => do
      let t' ← applyO k s t
      let r ← applyListO k s rest
      pure (t' :: r)

end

/-- Unification failures, from unify.rs (UnifyError), extended by the
two embedding-specific outcomes bug (a Rust panic: unreachable! or a
failed assert!) and fuel (fuel exhaustion of the embedding). -/
inductive UnifyError where
  | occursCheck (mv : Nat) (ty : Ty)
  | headMismatch
  | overloadMismatch (ov : Overload)
  | bug
  | fuel

/-- Whether a type is exactly the given meta variable (the same-meta-var
early return at the top of the MetaVar case of unify_). -/
def sameMv (mv : Nat) : Ty → Bool
  | .metaVar mv2 => mv == mv2
  | _ => false

/-- The MetaVar case of unify_, from unify.rs lines 36 to 95: the same-var
early return, the occurs check, solving the variable, and fusing a
pre-existing kind entry (equality or overload) with the solution.  On the
error paths the Rust code leaves its mutations in the substitution; the
embedding returns the error alone since no caller observes the
substitution after a failed unification. -/
def unifyMv (s : Subst) (mv : Nat) (ty : Ty) : Except UnifyError Subst :=
  if sameMv mv ty then .ok s
  else if occurs mv ty then .error (.occursCheck mv ty)
  else
    let r1 := s.insert mv (.solved ty)
    let s1 := r1.2
    match r1.1 with
    | Option.none => .ok s1
    | some (.solved _) => .error .bug
    | some (.kind .equality) => .ok s1
    | some (.kind (.overloaded ov)) =>
      match ty with
      | .none => .ok s1
      | .con args sym =>
        if sym ∈ ov.to_syms then
          if args.isEmpty then .ok s1 else .error .bug
        else .error (.overloadMismatch ov)
      | .metaVar mv2 =>
        let r2 := s1.insert mv2 (.kind (.overloaded ov))
        let s2 := r2.2
        match r2.1 with
        | Option.none => .ok s2
        | some (.solved _) => .error .bug
        | some (.kind .equality) => .ok s2
        | some (.kind (.overloaded ov2)) =>
          if ov2.to_syms.all (fun x => x ∈ ov.to_syms) then .ok s2
          else .error (.overloadMismatch ov)
      | .boundVar _ | .fixedVar _ | .record _ | .fn _ _ =>
        .error (.overloadMismatch ov)

/-- BTreeMap::remove on the rows representation: removes the unique
binding of the given label, returning its value and the remaining rows. -/
def removeKey : List (Lab × Ty) → Lab → Option (Ty × List (Lab × Ty))
  | [], _ => Option.none
  | p :: rest, lab =>
    if p.1 = lab then some (p.2, rest)
    else (removeKey rest lab).map (fun q => (q.1, p :: q.2))

mutual

/-- The recursive unifier unify_, from unify.rs lines 30 to 126: want and
got have the substitution applied to them upon entry, then the cases are
matched in the order of the Rust match arms. -/
def unifyF : Nat → Subst → Ty → Ty → Except UnifyError Subst
  | 0, _, _, _ => .error .fuel
  | k + 1, s, want, got =>
    match applyO k s want, applyO k s got with
    | some want, some got =>
      match want, got with
      | .none, _ => .ok s
      | _, .none => .ok s
      | .boundVar w, .boundVar g =>
        if w = g then .ok s else .error .headMismatch
      | .metaVar mv, ty => unifyMv s mv ty
      | ty, .metaVar mv => unifyMv s mv ty
      | .fixedVar w, .fixedVar g =>
        if w = g then .ok s else .error .headMismatch
      | .record wantRows, .record gotRows => unifyRowsF k s wantRows gotRows
      | .con wantArgs wantSym, .con gotArgs gotSym =>
        if wantSym = gotSym then
          if wantArgs.length = gotArgs.length then
            unifyListF k s wantArgs gotArgs
          else .error .bug
        else .error .headMismatch
      | .fn wantParam wantRes, .fn gotParam gotRes => do
          let s1 ← unifyF k s wantParam gotParam
          unifyF k s1 wantRes gotRes
      | _, _ => .error .headMismatch
    | _, _ => .error .fuel

/-- The Record case loop of unify_: each want row must be removed from the
got rows and unified; afterwards no got row may remain. -/
def unifyRowsF : Nat → Subst → List (Lab × Ty) → List (Lab × Ty) →
    Except UnifyError Subst
  | 0, _, _, _ => .error .fuel
  | _ + 1, s, [], gotRows =>
    if gotRows.isEmpty then .ok s else .error .headMismatch
  | k + 1, s, p :: rest, gotRows =>
    match removeKey gotRows p.1 with
    | Option.none => .error .headMismatch
    | some r => do
        let s1 ← unifyF k s p.2 r.1
        unifyRowsF k s1 rest r.2

/-- The Con case loop of unify_: pairwise unification of argument lists of
equal length. -/
def unifyListF : Nat → Subst → List Ty → List Ty → Except UnifyError Subst
  | 0, _, _, _ => .error .fuel
  | _ + 1, s, [], [] => .ok s
  | k + 1, s, w :: ws, g :: gs => do
      let s1 ← unifyF k s w g
      unifyListF k s1 ws gs
  | _ + 1, _, _, _ => .error .bug

end

/-- Statics error kinds relevant to unification, from
crates/statics/src/error.rs as produced by the unify wrapper. -/
inductive ErrorKind where
  | circularity (mv : Nat) (ty : Ty)
  | mismatchedTypes (want got : Ty)
  | overloadMismatch (ov : Overload) (want got : Ty)

/-- The error conversion of the unify wrapper, from unify.rs lines 14 to
18: an OccursCheck unify error is reported as a Circularity error.  The
embedding-specific outcomes bug and fuel have no reported error. -/
def toErrorKind (want got : Ty) : UnifyError → Option ErrorKind
  | .occursCheck mv ty => some (.circularity mv ty)
  | .headMismatch => some (.mismatchedTypes want got)
  | .overloadMismatch ov => some (.overloadMismatch ov want got)
  | .bug => Option.none
  | .fuel => Option.none

mutual

/-- The free meta variables of a type under a substitution, in call order
of the callback f, from crates/statics/src/dec.rs (meta_vars): a meta
variable not solved by the substitution is collected, a solved one is
replaced by its solution.  Fueled like applyO. -/
def metaVarsF : Nat → Subst → Ty → List Nat
  | 0, _, _ => []
  | k + 1, s, ty =>
    match ty with
    | .none | .boundVar _ | .fixedVar _ => []
    | .metaVar mv =>
      match s.getSolved mv with
      | Option.none => [mv]
      | some t => metaVarsF k s t
    | .record rows => metaVarsRowsF k s rows
    | .con args _ => metaVarsListF k s args
    | .fn param res => metaVarsF k s param ++ metaVarsF k s res

/-- Free meta variables of record row values. -/
def metaVarsRowsF : Nat → Subst → List (Lab × Ty) → List Nat
  | 0, _, _ => []
  | _ + 1, _, [] => []
  | k + 1, s, p :: rest => metaVarsF k s p.2 ++ metaVarsRowsF k s rest

/-- Free meta variables of a list of types. -/
def metaVarsListF : Nat → Subst → List Ty → List Nat
  | 0, _, _ => []
  | _ + 1, _, [] => []
  | k + 1, s, t :: rest => metaVarsF k s t ++ metaVarsListF k s rest

end

/-- Insert a number into a sorted list keeping it sorted (no duplicate is
inserted): the iteration order of the Rust BTreeSet. -/
def insSorted (n : Nat) : List Nat → List Nat
  | [] => [n]
  | m :: rest =>
    if n < m then n :: m :: rest
    else if n = m then m :: rest
    else m :: insSorted n rest

/-- The contents of the BTreeSet built by inserting the given list of
numbers: sorted and duplicate-free. -/
def sortedDedup : List Nat → List Nat
  | [] => []
  | n :: rest => insSorted n (sortedDedup rest)

/-- Kinds of the bound variables of a type scheme produced by
generalization (Regular, Equality or Overloaded per the spec). -/
inductive GVarKind where
  | regular
  | equality
  | overloaded (ov : Overload)

/-- A type scheme: bound variable kinds and a body. -/
structure TyScheme where
  vars : List GVarKind
  ty : Ty

/-- Modelled from the spec: the kind a generalized meta variable keeps
(its kind entry in the substitution, or Regular when it has none). -/
def kindOf (s : Subst) (mv : Nat) : GVarKind :=
  match s.get mv with
  | some (.kind .equality) => .equality
  | some (.kind (.overloaded ov)) => .overloaded ov
  | _ => .regular

/-- The set of meta variables that the generalization step of dec.rs
(lines 50 to 61) converts to bound variables: the to_generalize BTreeSet
collected by meta_vars over the bound type under the substitution.  Note
that it is computed from the substitution and the bound type only; no
enclosing environment takes part. -/
def toGeneralize (fuel : Nat) (s : Subst) (ty : Ty) : List Nat :=
  sortedDedup (metaVarsF fuel s ty)

/-- Modelled from the spec: prepare_generalize (crates/statics/src/types.rs,
not among the sources) maps the i-th collected meta variable to BoundVar i,
preserving its kind. -/
def prepareGeneralize (s : Subst) (mvs : List Nat) : List GVarKind × Subst :=
  (mvs.map (kindOf s),
   (mvs.enum.map (fun p => (p.2, SubstEntry.solved (Ty.boundVar p.1)))))

/-- The generalization step performed for each val-env entry by dec.rs
lines 50 to 61: collect the unsolved meta variables of the bound type,
convert all of them to bound variables, and build the type scheme. -/
def generalizeTyScheme (fuel : Nat) (s : Subst) (ty : Ty) : TyScheme :=
  let mvs := toGeneralize fuel s ty
  let pg := prepareGeneralize s mvs
  { vars := pg.1, ty := (applyO fuel pg.2 ty).getD ty }

/-- A substitution all of whose solutions are None-free and well-formed
(record rows sorted); the invariant threaded through unification. -/
def GoodS (s : Subst) : Prop :=
  ∀ mv t, s.getSolved mv = some t → noneFree t = true ∧ wf t = true

/-- Solved entries of s survive into s2 (unification only adds solutions
and refines kind entries). -/
def Ext (s s2 : Subst) : Prop :=
  ∀ mv t, s.getSolved mv = some t → s2.getSolved mv = some t

/-- A type is s-normal when all its meta variables are unsolved in s. -/
def SNormal (s : Subst) (ty : Ty) : Prop :=
  ∀ mv ∈ mvars ty, s.getSolved mv = Option.none

/-- Row lists are s-normal when all their value types are. -/
def SNormalRows (s : Subst) (rows : List (Lab × Ty)) : Prop :=
  ∀ mv ∈ mvarsRows rows, s.getSolved mv = Option.none

/-- Type lists are s-normal when all their member types are. -/
def SNormalList (s : Subst) (l : List Ty) : Prop :=
  ∀ mv ∈ mvarsList l, s.getSolved mv = Option.none

/-- The result of applying a substitution to a type: the graph of apply,
stated via fuel so that it is executable; by fuel monotonicity the result
is unique. -/
def Apply (s : Subst) (ty r : Ty) : Prop :=
  ∃ k, applyO k s ty = some r

/-- The result of applying a substitution to record rows. -/
def ApplyRows (s : Subst) (rows r : List (Lab × Ty)) : Prop :=
  ∃ k, applyRowsO k s rows = some r

/-- The result of applying a substitution to a list of types. -/
def ApplyList (s : Subst) (l r : List Ty) : Prop :=
  ∃ k, applyListO k s l = some r

/-- Total preservation of applicability: every type that the first
substitution fully applies, the second does too. -/
def TotPres (s s2 : Subst) : Prop :=
  ∀ ty w, Apply s ty w → ∃ w2, Apply s2 ty w2

mutual

/-- Single meta-variable substitution: replace mv by t0 everywhere (the
shape of apply under a substitution extended by one new solution). -/
def subst1 (mv : Nat) (t0 : Ty) : Ty → Ty
  | .none => .none
  | .boundVar n => .boundVar n
  | .fixedVar n => .fixedVar n
  | .metaVar mv2 => if mv2 = mv then t0 else .metaVar mv2
  | .record rows => .record (subst1Rows mv t0 rows)
  | .con args sym => .con (subst1List mv t0 args) sym
  | .fn param res => .fn (subst1 mv t0 param) (subst1 mv t0 res)

/-- Single substitution on record rows. -/
def subst1Rows (mv : Nat) (t0 : Ty) : List (Lab × Ty) → List (Lab × Ty)
  | [] => []
  | p :: rest => (p.1, subst1 mv t0 p.2) :: subst1Rows mv t0 rest

/-- Single substitution on a list of types. -/
def subst1List (mv : Nat) (t0 : Ty) : List Ty → List Ty
  | [] => []
  | t :: rest => subst1 mv t0 t :: subst1List mv t0 rest

end

end Statics

namespace Eqck

/-- Record labels, as in Statics. -/
abbrev Lab := Nat

/-- Symbols (type names), as the index values of sym.rs: EXN = 0, INT = 1,
WORD = 2, REAL = 3, CHAR = 4, STRING = 5, BOOL = 6, LIST = 7. -/
abbrev Sym := Nat

/-- Whether a symbol admits equality, from sym.rs (Equality). -/
inductive Equality where
  | always
  | sometimes
  | never
  deriving DecidableEq, Repr

/-- Basic overload classes of the newer statics crate. -/
inductive BasicOverload where
  | int | real | word | string | char
  deriving DecidableEq, Repr

/-- Modelled from the spec: a composite overload is a union of basics;
as_basics returns them. -/
abbrev Composite := List BasicOverload

/-- Overloads of the newer statics crate: Basic or Composite. -/
inductive Overload where
  | basic (b : BasicOverload)
  | composite (c : Composite)
  deriving DecidableEq, Repr

/-- A fixed type variable: user-written, with its equality mark
(fv.ty_var().is_equality()). -/
structure FixedTyVar where
  id : Nat
  equality : Bool
  deriving DecidableEq, Repr

/-- Semantic types of the newer statics crate
(crates/sml-statics/src/types.rs, modelled from the spec: same shape as the
old crate plus the equality mark on fixed variables). -/
inductive Ty where
  | none
  | boundVar (bv : Nat)
  | metaVar (mv : Nat)
  | fixedVar (fv : FixedTyVar)
  | record (rows : List (Lab × Ty))
  | con (args : List Ty) (sym : Sym)
  | fn (param res : Ty)

/-- Kinds of unsolved meta variables in the newer crate: Equality,
Overloaded, or an unresolved record. -/
inductive TyVarKind where
  | equality
  | overloaded (ov : Overload)
  | record (rows : List (Lab × Ty))

/-- Substitution entries, as in the old crate. -/
inductive SubstEntry where
  | solved (t : Ty)
  | kind (k : TyVarKind)

/-- The substitution, as an association list. -/
abbrev Subst := List (Nat × SubstEntry)

/-- Keyed lookup. -/
def Subst.get : Subst → Nat → Option SubstEntry
  | [], _ => Option.none
  | p :: rest, mv => if p.1 = mv then some p.2 else Subst.get rest mv

/-- Keyed insertion (the previous value is not used by equality.rs). -/
def Subst.set : Subst → Nat → SubstEntry → Subst
  | [], mv, e => [(mv, e)]
  | p :: rest, mv, e =>
    if p.1 = mv then (mv, e) :: rest else p :: Subst.set rest mv e

/-- A type that is not an equality type, from equality.rs (NotEqTy). -/
inductive NotEqTy where
  | fixedTyVar
  | sym (s : Sym)
  | fn
  deriving DecidableEq, Repr

/-- Modelled from the spec: the equality mode of each standard basis
symbol (real is never an equality type; int, word, string, char, bool are
always; list and vector admit equality when their arguments do; ref always
does; exn never does). -/
def stdEquality : Sym → Equality
  | 1 => .always
  | 2 => .always
  | 3 => .never
  | 4 => .always
  | 5 => .always
  | 6 => .always
  | 7 => .sometimes
  | 8 => .always
  | 9 => .sometimes
  | _ => .never

/-- Modelled from the source get_basic_opt of equality.rs lines 109 to
116. -/
def getBasicOpt : BasicOverload → Except NotEqTy Unit
  | .int | .word | .string | .char => .ok ()
  | .real => .error (.sym 3)

/-- The all combinator of equality.rs: the first error wins. -/
def allBasics : List BasicOverload → Except NotEqTy Unit
  | [] => .ok ()
  | b :: rest =>
    match getBasicOpt b with
    | .error e => .error e
    | .ok _ => allBasics rest

mutual

/-- The equality-admission check get_ty, from equality.rs lines 55 to 92
(with ENABLED = true and ENABLE_DEBUG_CHECK = false, as in the source).
The read-only symbol equality table is passed separately from the mutated
substitution of St.  Fueled because the recursion runs through the
substitution; Option.none is fuel exhaustion or the BoundVar panic, both
of which are not results of the Rust function. -/
def getTyF (eqOf : Sym → Equality) : Nat → Subst → Ty →
    Option (Except NotEqTy Unit × Subst)
  | 0, _, _ => Option.none
  | k + 1, s, ty =>
    match ty with
    | .none => some (.ok (), s)
    | .boundVar _ => Option.none
    | .metaVar mv =>
      match s.get mv with
      | Option.none => some (.ok (), s.set mv (.kind .equality))
      | some (.solved t) => getTyF eqOf k s t
      | some (.kind .equality) => some (.ok (), s)
      | some (.kind (.overloaded (.basic b))) => some (getBasicOpt b, s)
      | some (.kind (.overloaded (.composite comp))) => some (allBasics comp, s)
      | some (.kind (.record rows)) => getRecordF eqOf k s rows
    | .fixedVar fv =>
      if fv.equality then some (.ok (), s) else some (.error .fixedTyVar, s)
    | .record rows => getRecordF eqOf k s rows
    | .con args sym => getConF eqOf k s args sym
    | .fn _ _ => some (.error .fn, s)

/-- The row check get_record: all row values must admit equality. -/
def getRecordF (eqOf : Sym → Equality) : Nat → Subst → List (Lab × Ty) →
    Option (Except NotEqTy Unit × Subst)
  | 0, _, _ => Option.none
  | _ + 1, s, [] => some (.ok (), s)
  | k + 1, s, p :: rest =>
    match getTyF eqOf k s p.2 with
    | Option.none => Option.none
    | some (.error e, s1) => some (.error e, s1)
    | some (.ok _, s1) => getRecordF eqOf k s1 rest

/-- The constructor check get_con, from equality.rs lines 123 to 129. -/
def getConF (eqOf : Sym → Equality) : Nat → Subst → List Ty → Sym →
    Option (Except NotEqTy Unit × Subst)
  | 0, _, _, _ => Option.none
  | k + 1, s, args, sym =>
    match eqOf sym with
    | .always => some (.ok (), s)
    | .sometimes => getArgsF eqOf k s args
    | .never => some (.error (.sym sym), s)

/-- The argument check: all constructor arguments must admit equality. -/
def getArgsF (eqOf : Sym → Equality) : Nat → Subst → List Ty →
    Option (Except NotEqTy Unit × Subst)
  | 0, _, _ => Option.none
  | _ + 1, s, [] => some (.ok (), s)
  | k + 1, s, t :: rest =>
    match getTyF eqOf k s t with
    | Option.none => Option.none
    | some (.error e, s1) => some (.error e, s1)
    | some (.ok _, s1) => getArgsF eqOf k s1 rest

end

end Eqck

namespace Facade

/-- Path ids: dense integer ids of interned canonical paths. -/
abbrev PathId := Nat

/-- A group of source files, from crates/analysis/src/lib.rs (Group). -/
structure Group where
  source_files : List PathId
  dependencies : List PathId

/-- The input to analysis, from lib.rs (Input); the PathMaps are
represented as association lists. -/
structure Input where
  sources : List (PathId × String)
  groups : List (PathId × Group)

/-- Association-list lookup (PathMap access). -/
def lookupA {α : Type} : List (PathId × α) → PathId → Option α
  | [], _ => Option.none
  | p :: rest, k => if p.1 = k then some p.2 else lookupA rest k

/-- The dependency graph built by get_many from the groups. -/
def graphOf (input : Input) : List (PathId × List PathId) :=
  input.groups.map (fun p => (p.1, p.2.dependencies))

/-- Modelled from the spec: one round of the topological sort — pick the
first remaining node all of whose dependencies are done or absent from the
graph. -/
def pickReady (remaining : List (PathId × List PathId)) (done : List PathId) :
    Option (PathId × List PathId) :=
  remaining.find? (fun p =>
    p.2.all (fun d => done.contains d || remaining.all (fun q => q.1 ≠ d)))

/-- Modelled from the spec: the topological sort loop; when no node is
ready and some remain, the graph has a cycle and the sort fails. -/
def topoGo : Nat → List (PathId × List PathId) → List PathId →
    Option (List PathId)
  | 0, remaining, acc =>
    if remaining.isEmpty then some acc.reverse else Option.none
  | k + 1, remaining, acc =>
    if remaining.isEmpty then some acc.reverse
    else
      match pickReady remaining acc with
      | Option.none => Option.none
      | some p => topoGo k (remaining.filter (fun q => q.1 ≠ p.1)) (p.1 :: acc)

/-- Modelled from the spec: topo_sort::get — topologically sorts the
groups, failing exactly on cyclic graphs (the topo_sort crate is not among
the sources). -/
def topoSortGet (g : List (PathId × List PathId)) : Option (List PathId) :=
  topoGo g.length g []

/-- Analysis::get_many, from crates/analysis/src/lib.rs lines 69 to 102:
the group graph is topologically sorted with unwrap_or_default, then each
source file of each group in order is analyzed with the statics state
threaded through, and per-file errors are collected.  The per-file
pipeline (AnalyzedFile::new plus statics::get) is abstracted as the
analyze argument threading a state of type sigma. -/
def getMany {σ ε : Type} (analyze : σ → String → σ × List ε) (init : σ)
    (input : Input) : List (PathId × List ε) :=
  let order := (topoSortGet (graphOf input)).getD []
  let paths := order.flatMap (fun path =>
    match lookupA input.groups path with
    | some g => g.source_files
    | Option.none => [])
  (paths.foldl
    (fun (st : σ × List (PathId × List ε)) path_id =>
      match lookupA input.sources path_id with
      | Option.none => st
      | some s =>
        let r := analyze st.1 s
        (r.1, st.2 ++ [(path_id, r.2)]))
    (init, [])).2

end Facade

namespace Dyn

/-- Names are interned strings. -/
abbrev Name := String

/-- Record labels, from sml-hir (Lab): a name or a numeric label. -/
inductive Lab where
  | name (n : Name)
  | num (n : Nat)
  deriving DecidableEq, Repr

/-- Special constants, from sml-hir (SCon); the real payload keeps its
source text. -/
inductive SCon where
  | int (n : Int)
  | word (n : Nat)
  | char (c : Char)
  | string (s : String)
  | real (source : String)
  deriving DecidableEq, Repr

/-- Qualified names, from sml-hir (Path). -/
structure Path where
  structures : List Name
  last : Name
  deriving DecidableEq, Repr

/-- Type variables with their equality mark. -/
structure TyVar where
  name : Name
  equality : Bool
  deriving DecidableEq, Repr

mutual

/-- Expressions, from crates/sml-hir/src/lib.rs (Exp); the arena indices
and optional indices are represented as optional subtrees. -/
inductive Exp where
  | hole
  | scon (sc : SCon)
  | path (p : Path)
  | record (rows : List (Lab × Option Exp))
  | letE (dec : Option Dec) (body : Option Exp)
  | app (func arg : Option Exp)
  | handleE (head : Option Exp) (matcher : List (Option Pat × Option Exp))
  | raiseE (e : Option Exp)
  | fnE (matcher : List (Option Pat × Option Exp))
  | typed (e : Option Exp)

/-- Declarations, from sml-hir (Dec); the payloads not touched by the
step evaluator are kept only as far as step.rs inspects them. -/
inductive Dec where
  | val (tyVars : List TyVar) (valBinds : List ValBind)
  | ty
  | datatypeD
  | datatypeCopy (name : Name) (p : Path)
  | abstypeD (dec : Option Dec)
  | exceptionD
  | localD (locals ins : Option Dec)
  | openD (paths : List Path)
  | seq (decs : List (Option Dec))

/-- One val binding, from sml-hir (ValBind). -/
inductive ValBind where
  | mk (recFlag : Bool) (pat : Option Pat) (exp : Option Exp)

/-- Patterns, from sml-hir (Pat). -/
inductive Pat where
  | wild
  | scon (sc : SCon)
  | con (p : Path) (arg : Option (Option Pat))
  | record (rows : List (Lab × Option Pat)) (allowsOther : Bool)
  | typed (p : Option Pat)
  | asP (name : Name) (p : Option Pat)
  | orP (first : Option Pat) (rest : List (Option Pat))

end

/-- The kind of a constructor value, from sml-dynamics types (modelled
from the spec): a datatype constructor or an exception with its identity. -/
inductive ConKind where
  | dat (n : Name)
  | exn (n : Name) (e : Nat)
  deriving DecidableEq, Repr

mutual

/-- Values, modelled from the spec:
SCon, Con with optional argument, Closure, Record. -/
inductive Val where
  | scon (sc : SCon)
  | con (c : ConV)
  | closure (c : Closure)
  | record (rows : List (Lab × Val))

/-- A constructor value. -/
inductive ConV where
  | mk (kind : ConKind) (arg : Option Val)

/-- A closure: captured environment, the set of recursive names, and the
matcher. -/
inductive Closure where
  | mk (env : Env) (this : List Name) (matcher : List (Option Pat × Option Exp))

/-- An environment: structure bindings and value bindings. -/
inductive Env where
  | mk (str : List (Name × Env)) (val : List (Name × Val))

end

/-- An exception value of the machine: a constructor value whose kind is
an exception (Step::Raise carries one; converting it to a value is the
identity in this model). -/
abbrev Exception := ConV

/-- The value bindings accumulated by pattern matching. -/
abbrev ValEnv := List (Name × Val)

/-- The empty environment (Env::default). -/
def Env.default : Env := .mk [] []

/-- The value bindings of an environment. -/
def Env.valOf : Env → List (Name × Val)
  | .mk _ v => v

/-- The structure bindings of an environment. -/
def Env.strOf : Env → List (Name × Env)
  | .mk s _ => s

/-- Insert-or-overwrite into an association list (map insertion). -/
def insertA {α : Type} : List (Name × α) → Name → α → List (Name × α)
  | [], k, v => [(k, v)]
  | p :: rest, k, v =>
    if p.1 = k then (k, v) :: rest else p :: insertA rest k v

/-- Extend the value bindings of an environment (st.env.val.extend(ac)). -/
def Env.extendVal (e : Env) (ac : ValEnv) : Env :=
  .mk e.strOf (ac.foldl (fun m p => insertA m p.1 p.2) e.valOf)

/-- The machine step states, modelled from the spec:
Exp, Val, Dec, Raise, DecDone. -/
inductive Step where
  | exp (e : Option Exp)
  | val (v : Val)
  | dec (d : Option Dec)
  | raise (exn : Exception)
  | decDone

/-- Frame kinds, modelled from the spec list: Record, AppFunc,
AppClosureArg, AppConArg, Raise, Handle, ValBind, Let, Local, In, with the
payloads step.rs stores in them. -/
inductive FrameKind where
  | record (isTuple : Bool) (valRows : List (Lab × Val)) (lab : Lab)
      (expRows : List (Lab × Option Exp))
  | appFunc (arg : Option Exp)
  | appClosureArg (matcher : List (Option Pat × Option Exp))
  | appConArg (kind : ConKind)
  | raiseF
  | handleF (matcher : List (Option Pat × Option Exp))
  | valBind (recursive : Bool) (pat : Option Pat) (valBinds : List ValBind)
  | letF (decs : List (Option Dec)) (exp : Option Exp)
  | localF (localDecs inDecs : List (Option Dec))
  | inF (decs : List (Option Dec))

/-- A frame: a captured environment and a kind. -/
structure Frame where
  env : Env
  kind : FrameKind

/-- The dynamics state: current environment and the frame stack.  The Rust
frame Vec pushes and pops at its end; the list holds the top of the stack
at its head. -/
structure St where
  env : Env
  frames : List Frame

/-- The name a constructor kind binds. -/
def ConKind.name : ConKind → Name
  | .dat n => n
  | .exn n _ => n

/-- Row lookup by label in a record value. -/
def lookupRow : List (Lab × Val) → Lab → Option Val
  | [], _ => Option.none
  | p :: rest, lab => if p.1 = lab then some p.2 else lookupRow rest lab

mutual

/-- Pattern matching of a value, accumulating bindings, modelled from the
spec (crates/sml-dynamics/src/pat_match.rs is not among the sources):
wildcards match; special constants match by equality; a constructor
pattern matches a constructor value of the same name when their optional
arguments match; a record pattern requires each row to match, extra rows
being allowed exactly when the pattern allows them; typed patterns drop
the annotation; an as-pattern binds its name; an or-pattern tries its
alternatives in order.  Fueled; a missing sub-pattern matches nothing. -/
def patMatchF : Nat → ValEnv → Option Pat → Val → Bool × ValEnv
  | 0, ac, _, _ => (false, ac)
  | k + 1, ac, pat, v =>
    match pat with
    | Option.none => (false, ac)
    | some .wild => (true, ac)
    | some (.scon sc) =>
      match v with
      | .scon sc2 => (sc = sc2, ac)
      | _ => (false, ac)
    | some (.con p arg) =>
      match v with
      | .con (.mk kind argv) =>
        if kind.name = p.last then
          match arg, argv with
          | Option.none, Option.none => (true, ac)
          | some ap, some av => patMatchF k ac ap av
          | _, _ => (false, ac)
        else (false, ac)
      | _ => (false, ac)
    | some (.record rows allowsOther) =>
      match v with
      | .record vrows =>
        if allowsOther || rows.length = vrows.length then
          patMatchRowsF k ac rows vrows
        else (false, ac)
      | _ => (false, ac)
    | some (.typed p) => patMatchF k ac p v
    | some (.asP name p) =>
      match p with
      | Option.none => (true, insertA ac name v)
      | some _ => patMatchF k (insertA ac name v) p v
    | some (.orP first rest) => patMatchOrF k ac (first :: rest) v

/-- Record row matching: each pattern row must match the corresponding
value row. -/
def patMatchRowsF : Nat → ValEnv → List (Lab × Option Pat) →
    List (Lab × Val) → Bool × ValEnv
  | 0, ac, _, _ => (false, ac)
  | _ + 1, ac, [], _ => (true, ac)
  | k + 1, ac, row :: rest, vrows =>
    match lookupRow vrows row.1 with
    | Option.none => (false, ac)
    | some v =>
      let r := patMatchF k ac row.2 v
      if r.1 then patMatchRowsF k r.2 rest vrows else (false, r.2)

/-- Or-pattern matching: the first matching alternative wins. -/
def patMatchOrF : Nat → ValEnv → List (Option Pat) → Val → Bool × ValEnv
  | 0, ac, _, _ => (false, ac)
  | _ + 1, ac, [], _ => (false, ac)
  | k + 1, ac, p :: rest, v =>
    let r := patMatchF k ac p v
    if r.1 then (true, r.2) else patMatchOrF k r.2 rest v

end

/-- The matcher loop of step.rs (shared by AppClosureArg, Handle): a
single accumulator is threaded through the arms; the first arm whose
pattern matches the value is selected. -/
def tryArmsF (fuel : Nat) : ValEnv → List (Option Pat × Option Exp) →
    Val → Option (Option Exp × ValEnv)
  | _, [], _ => Option.none
  | ac, arm :: rest, v =>
    let r := patMatchF fuel ac arm.1 v
    if r.1 then some (arm.2, r.2) else tryArmsF fuel r.2 rest v

/-- The Step::Raise arm of step, from crates/sml-dynamics/src/step.rs
lines 157 to 177: with no frames the uncaught exception is terminal;
otherwise one frame is popped, a Handle frame whose matcher matches the
exception value enters the matching arm under the frame environment
extended with the bindings, and every other frame (including a Handle
that does not match) keeps the exception bubbling up.  The fuel only
feeds pattern matching. -/
def stepRaise (fuel : Nat) (st : St) (exn : Exception) : (Step × Bool) × St :=
  match st.frames with
  | [] => ((.raise exn, true), st)
  | frame :: rest =>
    match frame.kind with
    | .handleF matcher =>
      let v := Val.con exn
      match tryArmsF fuel [] matcher v with
      | some r =>
        ((.exp r.1, true),
         { env := (frame.env.extendVal r.2), frames := rest })
      | Option.none => ((.raise exn, true), { st with frames := rest })
    | _ => ((.raise exn, true), { st with frames := rest })

end Dyn

namespace CmP

/-- Text ranges of tokens. -/
structure TextRange where
  start : Nat
  stop : Nat
  deriving DecidableEq, Repr

/-- The default text range. -/
def TextRange.default : TextRange := ⟨0, 0⟩

/-- A value with its source range. -/
structure WithRange (α : Type) where
  val : α
  range : TextRange
  deriving DecidableEq, Repr

/-- CM tokens, from cm-syntax (Token), modelled from their uses in
parse.rs. -/
inductive Token where
  | structureT
  | signatureT
  | functorT
  | funSigT
  | group
  | library
  | source
  | is
  | lRound
  | rRound
  | colon
  | minus
  | string (s : String)
  deriving DecidableEq, Repr

/-- Namespaces of name exports. -/
inductive NamespaceK where
  | structureN | signatureN | functorN | funSigN
  deriving DecidableEq, Repr

/-- A resolved path or the standard basis sentinel. -/
inductive PathOrStdBasis where
  | path (p : String)
  | stdBasis
  deriving DecidableEq, Repr

/-- A resolved path or the minus placeholder. -/
inductive PathOrMinus where
  | path (p : String)
  | minus
  deriving DecidableEq, Repr

/-- Exports of a CM description, from cm-syntax (Export) as built by this
parse.rs. -/
inductive Export where
  | nameE (ns : WithRange NamespaceK) (name : WithRange String)
  | libraryE (p : WithRange PathOrStdBasis)
  | sourceE (p : WithRange PathOrMinus)
  | groupE (p : WithRange PathOrMinus)
  deriving DecidableEq, Repr

/-- Member classes; the Class FromStr of this version is infallible, so a
class is its string. -/
abbrev Class := String

/-- A member of a CM description. -/
structure Member where
  pathname : WithRange PathOrStdBasis
  class? : Option (WithRange Class)
  deriving DecidableEq, Repr

/-- Whether the description is a Group or a Library. -/
inductive DescKind where
  | group | library
  deriving DecidableEq, Repr

/-- The parsed root of a CM description. -/
structure ParseRoot where
  kind : DescKind
  exports : List Export
  members : List Member
  deriving DecidableEq, Repr

/-- Parse error kinds, from cm-syntax (ErrorKind) as produced by parse.rs,
plus the embedding-specific fuel exhaustion. -/
inductive ErrorKind where
  | expectedString
  | expected (t : Token)
  | expectedExport
  | expectedDesc
  | emptyExportList
  | expectedPathOrMinus
  | slashVarPathError
  | fuel
  deriving DecidableEq, Repr

/-- A parse error with the range it points at. -/
structure PError where
  kind : ErrorKind
  range : TextRange
  deriving DecidableEq, Repr

/-- The outcome of the injected slash-var-path resolver
(paths::slash_var_path::get; external to these sources): a resolved path,
an undefined variable, or another resolution error. -/
inductive PathRes where
  | ok (p : String)
  | undefined (var : String)
  | err

/-- The resolver for paths with variables, abstracted as a function. -/
abbrev Resolver := String → PathRes

/-- The parser state, from parse.rs (Parser): the token slice, the
position, and the range of the last bumped token. -/
structure P where
  tokens : List (WithRange Token)
  idx : Nat
  lastRange : TextRange
  deriving Repr

/-- Parser::cur_tok. -/
def P.curTok (p : P) : Option (WithRange Token) := p.tokens.get? p.idx

/-- Parser::cur. -/
def P.cur (p : P) : Option Token := (p.curTok).map (fun t => t.val)

/-- Parser::err. -/
def P.errK {α : Type} (p : P) (kind : ErrorKind) : Except PError α :=
  .error { kind := kind, range := p.lastRange }

/-- Parser::string. -/
def P.stringTok (p : P) : Except PError (WithRange String) :=
  match p.curTok with
  | some tok =>
    match tok.val with
    | .string s => .ok { val := s, range := tok.range }
    | _ => p.errK .expectedString
  | Option.none => p.errK .expectedString

/-- Parser::bump. -/
def P.bump (p : P) : P :=
  match p.curTok with
  | some tok => { p with lastRange := tok.range, idx := p.idx + 1 }
  | Option.none => p

/-- Parser::eat. -/
def P.eat (p : P) (kind : Token) : Except PError P :=
  if p.cur = some kind then .ok p.bump else p.errK (.expected kind)

/-- The path helper of parse.rs lines 183 to 195: resolve the string; the
undefined variables with name empty or SMLNJ-LIB denote the standard
basis. -/
def pathF (resolve : Resolver) (p : P) (s : String) :
    Except PError PathOrStdBasis :=
  match resolve s with
  | .ok x => .ok (.path x)
  | .undefined var =>
    if var = "" ∨ var = "SMLNJ-LIB" then .ok .stdBasis
    else p.errK .slashVarPathError
  | .err => p.errK .slashVarPathError

/-- The name_export helper of parse.rs lines 175 to 181. -/
def nameExport (p : P) (tok : WithRange Token) (ns : NamespaceK) :
    Except PError (Export × P) := do
  let p := p.bump
  let s ← p.stringTok
  let p := p.bump
  .ok (.nameE { val := ns, range := tok.range } s, p)

/-- The source_or_group_export_arg helper of parse.rs lines 158 to 173. -/
def sourceOrGroupArg (resolve : Resolver) (p : P) :
    Except PError (PathOrMinus × P) :=
  match p.cur with
  | some .minus => .ok (.minus, p.bump)
  | some (.string s) =>
    let p := p.bump
    match pathF resolve p s with
    | .ok (.path x) => .ok (.path x, p)
    | .ok .stdBasis => p.errK .expectedPathOrMinus
    | .error e => .error e
  | _ => p.errK .expectedPathOrMinus

/-- The export-gathering loop of exports_and_members (parse.rs lines 83
to 125), fueled; it stops at the is token or at the end of input. -/
def exportsLoopF (resolve : Resolver) :
    Nat → P → List Export → Except PError (List Export × P)
  | 0, p, _ => p.errK .fuel
  | k + 1, p, acc =>
    match p.curTok with
    | Option.none => .ok (acc.reverse, p)
    | some tok =>
      match tok.val with
      | .structureT => do
          let r ← nameExport p tok .structureN
          exportsLoopF resolve k r.2 (r.1 :: acc)
      | .signatureT => do
          let r ← nameExport p tok .signatureN
          exportsLoopF resolve k r.2 (r.1 :: acc)
      | .functorT => do
          let r ← nameExport p tok .functorN
          exportsLoopF resolve k r.2 (r.1 :: acc)
      | .funSigT => do
          let r ← nameExport p tok .funSigN
          exportsLoopF resolve k r.2 (r.1 :: acc)
      | .library => do
          let p := p.bump
          let p ← p.eat .lRound
          let s ← p.stringTok
          let p := p.bump
          let pathname ← pathF resolve p s.val
          let p ← p.eat .rRound
          exportsLoopF resolve k p
            (.libraryE { val := pathname, range := s.range } :: acc)
      | .source => do
          let p := p.bump
          let p ← p.eat .lRound
          let r ← sourceOrGroupArg resolve p
          let p ← r.2.eat .rRound
          exportsLoopF resolve k p
            (.sourceE { val := r.1, range := tok.range } :: acc)
      | .group => do
          let p := p.bump
          let p ← p.eat .lRound
          let r ← sourceOrGroupArg resolve p
          let p ← r.2.eat .rRound
          exportsLoopF resolve k p
            (.groupE { val := r.1, range := tok.range } :: acc)
      | .is => .ok (acc.reverse, p)
      | _ => (p.bump).errK .expectedExport

/-- The member-gathering loop of exports_and_members (parse.rs lines 127
to 154), fueled; it stops at a non-string token or at the end of input. -/
def membersLoopF (resolve : Resolver) :
    Nat → P → List Member → Except PError (List Member × P)
  | 0, p, _ => p.errK .fuel
  | k + 1, p, acc =>
    match p.curTok with
    | Option.none => .ok (acc.reverse, p)
    | some tok =>
      match tok.val with
      | .string s => do
        let p := p.bump
        let pathname ← pathF resolve p s
        match p.cur with
        | some .colon => do
          let p := p.bump
          let s2 ← p.stringTok
          let p := p.bump
          membersLoopF resolve k p
            ({ pathname := { val := pathname, range := tok.range },
               class? := some s2 } :: acc)
        | _ =>
          membersLoopF resolve k p
            ({ pathname := { val := pathname, range := tok.range },
               class? := Option.none } :: acc)
      | _ => .ok (acc.reverse, p)

/-- The exports_and_members function of parse.rs lines 82 to 156. -/
def exportsAndMembers (resolve : Resolver) (fuel : Nat) (p : P) :
    Except PError (List Export × List Member × P) := do
  let r ← exportsLoopF resolve fuel p []
  let p ← r.2.eat .is
  let m ← membersLoopF resolve fuel p []
  .ok (r.1, m.1, m.2)

/-- The root parser, from parse.rs lines 62 to 80: a Group or Library
keyword, then exports and members; a Library whose export list is empty is
the EmptyExportList error. -/
def rootF (resolve : Resolver) (fuel : Nat) (p : P) :
    Except PError ParseRoot :=
  match p.cur with
  | some .group => do
    let p := p.bump
    let r ← exportsAndMembers resolve fuel p
    .ok { kind := .group, exports := r.1, members := r.2.1 }
  | some .library => do
    let p := p.bump
    let r ← exportsAndMembers resolve fuel p
    if r.1.isEmpty then r.2.2.errK .emptyExportList
    else .ok { kind := .library, exports := r.1, members := r.2.1 }
  | _ => p.errK .expectedDesc

/-- The entry point get of parse.rs lines 7 to 13. -/
def getCm (resolve : Resolver) (fuel : Nat)
    (tokens : List (WithRange Token)) : Except PError ParseRoot :=
  rootF resolve fuel { tokens := tokens, idx := 0, lastRange := TextRange.default }

end CmP

namespace InputR

/-- The injected filesystem abstraction (paths::FileSystem): each
operation may fail with an io error, modelled as Option.none. -/
structure Fs where
  readToString : String → Option String
  readDirF : String → Option (List String)
  isFile : String → Bool
  globF : String → Option (List (Option String))
  canonicalize : String → Option String

/-- Group file kinds. -/
inductive GroupPathKind where
  | cm | mlb
  deriving DecidableEq, Repr

/-- Error kinds of the input crate (crates/input/src/util.rs, modelled
from their uses in root.rs and the spec failure-mode list). -/
inductive ErrorKind where
  | readFile
  | couldNotParseConfig
  | invalidConfigVersion (v : Nat)
  | multipleRoots (a b : String)
  | noRoot (hadConfigFile : Bool)
  | notGroup
  | globPattern
  | emptyGlob (pat : String)
  | io
  | canonicalizeE
  | notInRoot
  deriving DecidableEq, Repr

/-- An input error: an optional source path it was found through, the
path it is about, and its kind. -/
structure Error where
  sourcePath : Option String
  path : String
  kind : ErrorKind
  deriving DecidableEq, Repr

/-- The config file name, from crates/config/src/lib.rs (FILE_NAME). -/
def configFileName : String := "millet.toml"

/-- Path-variable values of the config schema (modelled from the spec:
value, path, or workspace-path). -/
inductive PathVar where
  | value (v : String)
  | path (v : String)
  | workspacePath (v : String)

/-- Severities of the diagnostics config. -/
inductive Sev where
  | ignore | warning | error
  deriving DecidableEq, Repr

/-- The workspace section of the parsed config (modelled from its uses in
root.rs: an optional root glob and optional path variables). -/
structure Workspace where
  root : Option String
  path_vars : Option (List (String × PathVar))

/-- The parsed config file (config::Root as used by root.rs; the toml
parsing itself is external and injected).  Diagnostics carry
already-parsed numeric codes; the string-code parsing does not interact
with root discovery. -/
structure ConfigRoot where
  version : Nat
  workspace : Option Workspace
  diagnostics : Option (List (Nat × Option Sev))

/-- Entry kinds of the path-variable environment. -/
inductive EnvEntryKind where
  | value | workspacePath
  deriving DecidableEq, Repr

/-- An entry of the path-variable environment. -/
structure EnvEntry where
  kind : EnvEntryKind
  suffix : String

/-- The in-memory config of a Root. -/
structure Config where
  path_vars : List (String × EnvEntry)
  severities : List (Nat × Option Sev)

/-- The default config. -/
def Config.default : Config := ⟨[], []⟩

/-- A root group path with its kind. -/
structure GroupPathBuf where
  kind : GroupPathKind
  path : String

/-- Split a character list at every occurrence of the separator. -/
def splitOnChar (c : Char) : List Char → List (List Char)
  | [] => [[]]
  | x :: rest =>
    let r := splitOnChar c rest
    if x = c then [] :: r
    else
      match r with
      | [] => [[x]]
      | g :: gs => (x :: g) :: gs

/-- The extension of a path, as std::path::Path::extension: the suffix of
the final component after its last dot; a component with no dot, or one
whose only dot leads it, has none. -/
def extension (path : String) : Option String :=
  let name := (splitOnChar '/' path.data).getLastD []
  let parts := splitOnChar '.' name
  match parts with
  | [] => Option.none
  | [_] => Option.none
  | first :: rest =>
    if first.isEmpty ∧ rest.length = 1 then Option.none
    else some (String.mk (rest.getLastD []))

/-- GroupPathBuf::new, from root.rs lines 212 to 227: the path must be a
file with extension cm or mlb. -/
def groupPathNew (fs : Fs) (path : String) : Option GroupPathBuf :=
  if fs.isFile path then
    match extension path with
    | some "cm" => some ⟨.cm, path⟩
    | some "mlb" => some ⟨.mlb, path⟩
    | _ => Option.none
  else Option.none

/-- The glob phase of ConfigFromFile::new (root.rs lines 124 to 162):
each glob hit must be a group path; an empty glob is an error. -/
def globPhase (fs : Fs) (root : String) (configPath : String)
    (rootPathGlob : String) : Except Error (List GroupPathBuf) :=
  match fs.globF (root ++ "/" ++ rootPathGlob) with
  | Option.none =>
    .error ⟨Option.none, configPath, .globPattern⟩
  | some paths =>
    match
      paths.foldl
        (fun (acc : Except Error (List GroupPathBuf)) pathOpt => do
          let acc ← acc
          match pathOpt with
          | Option.none => .error ⟨Option.none, configPath, .io⟩
          | some path =>
            let path := root ++ "/" ++ path
            match groupPathNew fs path with
            | some gp => .ok (acc ++ [gp])
            | Option.none => .error ⟨some configPath, path, .notGroup⟩)
        (.ok [])
    with
    | .error e => .error e
    | .ok acc =>
      if acc.isEmpty then
        .error ⟨Option.none, configPath, .emptyGlob rootPathGlob⟩
      else .ok acc

/-- Insert-or-overwrite into a string-keyed association list. -/
def insertS {α : Type} : List (String × α) → String → α → List (String × α)
  | [], k, v => [(k, v)]
  | p :: rest, k, v =>
    if p.1 = k then (k, v) :: rest else p :: insertS rest k v

/-- The path-variable phase of ConfigFromFile::new (root.rs lines 164 to
180): value and path entries become values (paths joined under the
config root), workspace-path entries are kept for later resolution. -/
def pathVarsPhase (root : String) (vars : List (String × PathVar)) :
    List (String × EnvEntry) :=
  vars.foldl
    (fun acc p =>
      match p.2 with
      | .value v => insertS acc p.1 ⟨.value, v⟩
      | .path v => insertS acc p.1 ⟨.value, root ++ "/" ++ v⟩
      | .workspacePath v => insertS acc p.1 ⟨.workspacePath, v⟩)
    []

/-- ConfigFromFile::new, from root.rs lines 98 to 204, with the toml
parser injected: version must be 1; a workspace root glob contributes
root group paths; path variables and diagnostic severities fill the
config. -/
def configFromFile (fs : Fs) (tomlParse : String → Option ConfigRoot)
    (root : String) (configPath : String) (contents : String) :
    Except Error (String × Config × List GroupPathBuf) := do
  match tomlParse contents with
  | Option.none => .error ⟨Option.none, configPath, .couldNotParseConfig⟩
  | some parsed =>
    if parsed.version ≠ 1 then
      .error ⟨Option.none, configPath, .invalidConfigVersion parsed.version⟩
    else do
      let rgp ← match parsed.workspace with
        | Option.none => .ok ([] : List GroupPathBuf)
        | some ws =>
          match ws.root with
          | Option.none => .ok []
          | some rootPathGlob => globPhase fs root configPath rootPathGlob
      let pathVars := match parsed.workspace with
        | some ws =>
          match ws.path_vars with
          | some vars => pathVarsPhase root vars
          | Option.none => []
        | Option.none => []
      let severities := match parsed.diagnostics with
        | some ds =>
          ds.foldl
            (fun acc p =>
              match p.2 with
              | some .ignore => acc ++ [(p.1, Option.none)]
              | some .warning => acc ++ [(p.1, some Sev.warning)]
              | some .error => acc ++ [(p.1, some Sev.error)]
              | Option.none => acc)
            []
        | Option.none => []
      .ok (configPath, ⟨pathVars, severities⟩, rgp)

/-- The paths store (paths::Store): interned canonical paths. -/
structure Store where
  paths : List String

/-- Intern a canonical path, returning its dense id. -/
def Store.getId (st : Store) (p : String) : Nat × Store :=
  match st.paths.indexOf? p with
  | some i => (i, st)
  | Option.none => (st.paths.length, ⟨st.paths ++ [p]⟩)

/-- The get_path_id helper (crates/input/src/util.rs, modelled from its
uses): canonicalize then intern. -/
def getPathId (fs : Fs) (st : Store) (sourcePath : Option String)
    (path : String) : Except Error (Nat × Store) :=
  match fs.canonicalize path with
  | Option.none => .error ⟨sourcePath, path, .canonicalizeE⟩
  | some c => .ok (st.getId c)

/-- A root group: interned path id and kind. -/
structure RootGroup where
  path : Nat
  kind : GroupPathKind
  deriving DecidableEq, Repr

/-- The result of Root::new. -/
structure RootS where
  groups : List RootGroup
  config : Config

/-- The root-directory scan of Root::new (root.rs lines 42 to 58): each
directory entry that is a group path joins the root group paths, and a
second one is the MultipleRoots error naming the first and the second. -/
def scanDir (fs : Fs) (entries : List String)
    (acc : List GroupPathBuf) : Except Error (List GroupPathBuf) :=
  match entries with
  | [] => .ok acc
  | entry :: rest =>
    match groupPathNew fs entry with
    | Option.none => scanDir fs rest acc
    | some gp =>
      match acc.head? with
      | some rgp =>
        .error ⟨some rgp.path, entry, .multipleRoots rgp.path entry⟩
      | Option.none => scanDir fs rest (acc ++ [gp])

/-- Root::new, from crates/input/src/root.rs lines 17 to 78: read the
config file if present; when it does not determine the root group paths,
scan the root directory for group files (two of them is MultipleRoots,
none is NoRoot); finally intern the group paths. -/
def rootNew (fs : Fs) (tomlParse : String → Option ConfigRoot)
    (store : Store) (root : String) : Except Error (RootS × Store) := do
  let configPath := root ++ "/" ++ configFileName
  let cfgRead := fs.readToString configPath
  let hadConfigFile := cfgRead.isSome
  let r ← match cfgRead with
    | some contents => do
      let cff ← configFromFile fs tomlParse root configPath contents
      let src := if cff.2.2.isEmpty then (Option.none : Option String)
                 else some cff.1
      .ok (cff.2.1, cff.2.2, src)
    | Option.none => .ok (Config.default, [], Option.none)
  let rootGroupSource := r.2.2
  let rgp ← if r.2.1.isEmpty then
      match fs.readDirF root with
      | Option.none => .error (⟨Option.none, root, .io⟩ : Error)
      | some entries => scanDir fs entries []
    else .ok r.2.1
  if rgp.isEmpty then
    .error ⟨Option.none, root, .noRoot hadConfigFile⟩
  else do
    let r2 ← rgp.foldlM
      (fun (acc : List RootGroup × Store) gp => do
        let pr ← getPathId fs acc.2 rootGroupSource gp.path
        .ok (acc.1 ++ [⟨pr.1, gp.kind⟩], pr.2))
      (([] : List RootGroup), store)
    .ok (⟨r2.1, r.1⟩, r2.2)

end InputR

namespace SymT

/-- Whether a symbol admits equality, from sym.rs (Equality). -/
inductive Equality where
  | always | sometimes | never
  deriving DecidableEq, Repr

/-- Information about a symbol, from sym.rs (SymInfo); the ty_info payload
takes no part in symbol numbering and is not modelled. -/
structure SymInfo where
  path : List String
  equality : Equality

/-- Information about an exception, from sym.rs (ExnInfo); the parameter
type takes no part in numbering. -/
structure ExnInfo where
  path : List String

/-- The symbol table, from sym.rs (Syms): generated symbols and
exceptions (the overloads table takes no part in numbering). -/
structure Syms where
  syms : List SymInfo
  exns : List ExnInfo

/-- The empty Syms (the Default impl). -/
def Syms.default : Syms := ⟨[], []⟩

/-- A symbol is its raw index; EXN is the sentinel 0 and every other
special symbol has its fixed raw index (INT = 1 and so on). -/
abbrev Sym := Nat

/-- The sentinel exception symbol, from sym.rs (Sym::EXN). -/
def symEXN : Sym := 0

/-- Sym::idx: the raw index minus the one weird sym (EXN); never called
on EXN in the source. -/
def Sym.idxOf (s : Sym) : Nat := s - 1

/-- Sym::generated_after, from sym.rs lines 84 to 90: a sym was generated
after a marker when it is not EXN and its index is at least the marker. -/
def generated_after (s : Sym) (marker : Nat) : Bool :=
  s ≠ symEXN && decide (marker ≤ Sym.idxOf s)

/-- Syms::start, from sym.rs lines 243 to 259: push a provisional SymInfo
(equality Sometimes) and return the sym whose raw index is the length
after the push. -/
def Syms.start (sy : Syms) (path : List String) : Sym × Syms :=
  let syms2 := sy.syms ++ [{ path := path, equality := .sometimes }]
  (syms2.length, { sy with syms := syms2 })

/-- Syms::finish, from sym.rs lines 262 to 267: update the started sym's
info in place. -/
def Syms.finish (sy : Syms) (s : Sym) (eq : Equality) : Syms :=
  { sy with
    syms := sy.syms.set (Sym.idxOf s)
      (match sy.syms.get? (Sym.idxOf s) with
       | some info => { info with equality := eq }
       | Option.none => { path := [], equality := eq }) }

/-- Syms::insert_exn, from sym.rs lines 283 to 287. -/
def Syms.insertExn (sy : Syms) (path : List String) : Nat × Syms :=
  (sy.exns.length, { sy with exns := sy.exns ++ [{ path := path }] })

/-- Syms::mark, from sym.rs lines 299 to 302: the current length of the
sym list. -/
def Syms.mark (sy : Syms) : Nat := sy.syms.length

end SymT

namespace SymT

/-- C10: a Sym created by a Syms::start call made at or after the mark
(the mark is at most the current length, since lengths only grow) is
generated_after the mark; a Sym created before the mark (the mark is at
least the post-start length) is not; the sentinel EXN is generated_after
no marker; and start, finish, insert_exn change the mark as stated, so
marks never decrease. -/
theorem sym_generated_after_correct :
    (∀ (sy : Syms) (path : List String) (m : Nat),
      m ≤ sy.mark → generated_after (sy.start path).1 m = true)
    ∧ (∀ (sy : Syms) (path : List String) (m : Nat),
      (sy.start path).2.mark ≤ m → generated_after (sy.start path).1 m = false)
    ∧ (∀ m : Nat, generated_after symEXN m = false)
    ∧ (∀ (sy : Syms) (path : List String),
      ((sy.start path).2).mark = sy.mark + 1)
    ∧ (∀ (sy : Syms) (s : Sym) (eq : Equality),
      (Syms.finish sy s eq).mark = sy.mark)
    ∧ (∀ (sy : Syms) (path : List String),
      ((sy.insertExn path).2).mark = sy.mark) := by
  refine ⟨?_, ?_, ?_, ?_, ?_, ?_⟩
  · intro sy path m h
    have h1 : (sy.start path).1 = sy.syms.length + 1 := by
      simp [Syms.start]
    rw [h1]
    simp only [Syms.mark] at h
    simp only [generated_after, symEXN, Sym.idxOf, Bool.and_eq_true,
      decide_eq_true_eq, ne_eq]
    constructor
    · simp
    · omega
  · intro sy path m h
    have h1 : (sy.start path).1 = sy.syms.length + 1 := by
      simp [Syms.start]
    rw [h1]
    simp only [Syms.start, Syms.mark, List.length_append, List.length_cons,
      List.length_nil] at h
    simp only [generated_after, symEXN, Sym.idxOf]
    have h2 : ¬ (m ≤ sy.syms.length + 1 - 1) := by omega
    simp [h2]
    omega
  · intro m
    simp [generated_after, symEXN]
  · intro sy path
    simp [Syms.start, Syms.mark]
  · intro sy s eq
    simp [Syms.finish, Syms.mark]
  · intro sy path
    simp [Syms.insertExn, Syms.mark]

/-- Witness for C10 at concrete inputs: the empty Syms, one start before
and one after a mark. -/
theorem sym_generated_after_witness :
    (0 ≤ Syms.default.mark
      ∧ generated_after (Syms.default.start ["t"]).1 0 = true)
    ∧ ((Syms.default.start ["t"]).2.mark ≤ 1
      ∧ generated_after (Syms.default.start ["t"]).1 1 = false) :=
  ⟨⟨Nat.zero_le _, sym_generated_after_correct.1 Syms.default ["t"] 0 (Nat.zero_le _)⟩,
   ⟨Nat.le_refl _, sym_generated_after_correct.2.1 Syms.default ["t"] 1 (Nat.le_refl _)⟩⟩

end SymT

namespace Facade

/-- C6: when the group dependency graph has a cycle (the topological sort
fails), Analysis::get_many silently returns the empty error map — the
unwrap_or_default turns the failed sort into an empty order, no group is
analyzed, and no error of any kind is produced (the return type has no
error channel). -/
theorem get_many_cycle_silent {σ ε : Type} (analyze : σ → String → σ × List ε)
    (init : σ) (input : Input)
    (h : topoSortGet (graphOf input) = Option.none) :
    getMany analyze init input = [] := by
  simp [getMany, h]

/-- Witness for C6: a concrete two-group cycle with a nonempty source
file; the result is empty and errorless instead of an error. -/
theorem get_many_cycle_witness :
    topoSortGet (graphOf
      { sources := [(1, "val x = 1")],
        groups := [(10, { source_files := [1], dependencies := [11] }),
                   (11, { source_files := [], dependencies := [10] })] })
      = Option.none
    ∧ getMany (fun (u : Unit) _ => (u, ([] : List Nat))) ()
      { sources := [(1, "val x = 1")],
        groups := [(10, { source_files := [1], dependencies := [11] }),
                   (11, { source_files := [], dependencies := [10] })] } = [] :=
  ⟨rfl, get_many_cycle_silent _ _ _ rfl⟩

end Facade

namespace Statics

/-- C5: the generalization step of dec.rs converts to bound variables all
meta variables unsolved in the bound type, with no reference to the
enclosing environment: for the empty substitution and the bound type
consisting of the single meta variable 7 — which stands for a variable
free in the enclosing environment, as in the program
fun id x = let val ret = x in ret end, where the type of ret is the meta
variable of the enclosing parameter x — the collected set is exactly
that meta variable and it becomes a bound variable of the scheme. -/
theorem generalize_ignores_context :
    toGeneralize 3 [] (Ty.metaVar 7) = [7]
    ∧ generalizeTyScheme 3 [] (Ty.metaVar 7) =
      { vars := [.regular], ty := Ty.boundVar 0 } :=
  ⟨rfl, rfl⟩

end Statics

namespace Eqck

/-- C4: equality admission on the standard basis symbol table: real is
Err(Sym real); int is Ok; the record with an int and a string field is
Ok; every function type is Err(Fn); list int is Ok; list real is Err;
and list alpha for an unconstrained meta variable alpha records the
Equality kind for alpha in the substitution and returns Ok. -/
theorem equality_admission_correct :
    (∀ (s : Subst) (k : Nat),
      getTyF stdEquality (k + 2) s (.con [] 3) = some (.error (.sym 3), s))
    ∧ (∀ (s : Subst) (k : Nat),
      getTyF stdEquality (k + 2) s (.con [] 1) = some (.ok (), s))
    ∧ getTyF stdEquality 5 []
        (.record [(1, .con [] 1), (2, .con [] 5)]) = some (.ok (), [])
    ∧ (∀ (s : Subst) (k : Nat) (a b : Ty),
      getTyF stdEquality (k + 1) s (.fn a b) = some (.error .fn, s))
    ∧ getTyF stdEquality 6 [] (.con [.con [] 1] 7) = some (.ok (), [])
    ∧ getTyF stdEquality 6 [] (.con [.con [] 3] 7) = some (.error (.sym 3), [])
    ∧ (∀ (s : Subst) (α k : Nat), s.get α = Option.none →
      getTyF stdEquality (k + 4) s (.con [.metaVar α] 7) =
        some (.ok (), s.set α (.kind .equality))) := by
  refine ⟨?_, ?_, rfl, ?_, rfl, rfl, ?_⟩
  · intro s k
    simp [getTyF, getConF, stdEquality]
  · intro s k
    simp [getTyF, getConF, stdEquality]
  · intro s k a b
    simp [getTyF]
  · intro s α k h
    simp [getTyF, getConF, getArgsF, stdEquality, h]

/-- Witness for C4 at concrete inputs: the general conjuncts applied at
the meta variable 0 in the empty substitution and at a concrete function
type. -/
theorem equality_admission_witness :
    Subst.get [] 0 = Option.none
    ∧ getTyF stdEquality 4 [] (.con [.metaVar 0] 7) =
        some (.ok (), Subst.set [] 0 (.kind .equality))
    ∧ getTyF stdEquality 1 [] (.fn (.con [] 1) (.con [] 1)) =
        some (.error .fn, []) :=
  ⟨rfl, equality_admission_correct.2.2.2.2.2.2 [] 0 0 rfl,
   equality_admission_correct.2.2.2.1 [] 0 (.con [] 1) (.con [] 1)⟩

end Eqck

namespace Dyn

/-- C7: stepping Step::Raise — with an empty frame stack the machine
stays in the terminal Raise state; otherwise exactly one frame is popped;
a Handle frame whose matcher matches the exception value transfers
control to the matching arm (under the frame environment extended with
the bindings); a Handle frame whose matcher does not match, and every
other frame kind, produce Step::Raise again so the exception keeps
bubbling up. -/
theorem step_raise_correct :
    (∀ (env : Env) (exn : Exception) (fuel : Nat),
      stepRaise fuel ⟨env, []⟩ exn = ((.raise exn, true), ⟨env, []⟩))
    ∧ (∀ (env : Env) (exn : Exception) (fuel : Nat) (frame : Frame)
        (rest : List Frame) (matcher : List (Option Pat × Option Exp)),
      frame.kind = .handleF matcher →
      (∀ e ac, tryArmsF fuel [] matcher (Val.con exn) = some (e, ac) →
        stepRaise fuel ⟨env, frame :: rest⟩ exn =
          ((.exp e, true), ⟨frame.env.extendVal ac, rest⟩))
      ∧ (tryArmsF fuel [] matcher (Val.con exn) = Option.none →
        stepRaise fuel ⟨env, frame :: rest⟩ exn =
          ((.raise exn, true), ⟨env, rest⟩)))
    ∧ (∀ (env : Env) (exn : Exception) (fuel : Nat) (frame : Frame)
        (rest : List Frame),
      (∀ matcher, frame.kind ≠ .handleF matcher) →
      stepRaise fuel ⟨env, frame :: rest⟩ exn =
        ((.raise exn, true), ⟨env, rest⟩)) := by
  refine ⟨?_, ?_, ?_⟩
  · intro env exn fuel
    rfl
  · intro env exn fuel frame rest matcher hk
    constructor
    · intro e ac harm
      simp [stepRaise, hk, harm]
    · intro harm
      simp [stepRaise, hk, harm]
  · intro env exn fuel frame rest hk
    cases frame with
    | mk fenv fkind =>
      cases fkind <;> simp_all [stepRaise]

/-- Witness for C7: a handle frame with a wildcard arm catches a concrete
exception; a raise frame lets it bubble. -/
theorem step_raise_witness :
    (Frame.mk Env.default (.handleF [(some .wild, some .hole)])).kind
      = .handleF [(some .wild, some .hole)]
    ∧ tryArmsF 1 [] [(some .wild, some .hole)]
        (Val.con (.mk (.exn "E" 0) Option.none)) = some (some Exp.hole, [])
    ∧ stepRaise 1
        ⟨Env.default, [Frame.mk Env.default (.handleF [(some .wild, some .hole)])]⟩
        (.mk (.exn "E" 0) Option.none) =
      ((.exp (some .hole), true), ⟨Env.default.extendVal [], []⟩)
    ∧ (∀ matcher,
        (Frame.mk Env.default .raiseF).kind ≠ FrameKind.handleF matcher)
    ∧ stepRaise 1 ⟨Env.default, [Frame.mk Env.default .raiseF]⟩
        (.mk (.exn "E" 0) Option.none) =
      ((.raise (.mk (.exn "E" 0) Option.none), true), ⟨Env.default, []⟩) :=
  ⟨rfl, rfl,
   ((step_raise_correct.2.1 Env.default (.mk (.exn "E" 0) Option.none) 1
      (Frame.mk Env.default (.handleF [(some .wild, some .hole)])) []
      [(some .wild, some .hole)] rfl).1 (some Exp.hole) [] rfl),
   (by intro matcher h; cases h),
   (step_raise_correct.2.2 Env.default (.mk (.exn "E" 0) Option.none) 1
      (Frame.mk Env.default .raiseF) [] (by intro matcher h; cases h))⟩

end Dyn

namespace CmP

/-- C8: a CM description beginning with the Library keyword and carrying
an empty export list fails with EmptyExportList, while the same
description beginning with Group parses successfully with an empty export
list; the member suffix (hypothesized to parse to the same members in
both runs, which it does since the loops never look back at the leading
keyword) is arbitrary. -/
theorem cm_empty_export_list (resolve : Resolver) (k : Nat)
    (r0 r1 : TextRange) (rest : List (WithRange Token))
    (ms : List Member) (p1 p2 : P)
    (h1 : membersLoopF resolve (k + 1)
      ⟨⟨.library, r0⟩ :: ⟨.is, r1⟩ :: rest, 2, r1⟩ [] = .ok (ms, p1))
    (h2 : membersLoopF resolve (k + 1)
      ⟨⟨.group, r0⟩ :: ⟨.is, r1⟩ :: rest, 2, r1⟩ [] = .ok (ms, p2)) :
    getCm resolve (k + 1) (⟨.library, r0⟩ :: ⟨.is, r1⟩ :: rest) =
      .error ⟨.emptyExportList, p1.lastRange⟩
    ∧ getCm resolve (k + 1) (⟨.group, r0⟩ :: ⟨.is, r1⟩ :: rest) =
      .ok ⟨.group, [], ms⟩ := by
  constructor
  · have key : getCm resolve (k + 1) (⟨.library, r0⟩ :: ⟨.is, r1⟩ :: rest) =
        ((membersLoopF resolve (k + 1)
            ⟨⟨.library, r0⟩ :: ⟨.is, r1⟩ :: rest, 2, r1⟩ []).bind
          (fun m => (Except.ok ([], m.1, m.2) :
            Except PError (List Export × List Member × P)))).bind
          (fun r =>
            if r.1.isEmpty then r.2.2.errK .emptyExportList
            else .ok ⟨.library, r.1, r.2.1⟩) := rfl
    rw [key, h1]
    rfl
  · have key : getCm resolve (k + 1) (⟨.group, r0⟩ :: ⟨.is, r1⟩ :: rest) =
        ((membersLoopF resolve (k + 1)
            ⟨⟨.group, r0⟩ :: ⟨.is, r1⟩ :: rest, 2, r1⟩ []).bind
          (fun m => (Except.ok ([], m.1, m.2) :
            Except PError (List Export × List Member × P)))).bind
          (fun r => .ok ⟨.group, r.1, r.2.1⟩) := rfl
    rw [key, h2]
    rfl

/-- Witness for C8: the descriptions Library-is and Group-is with no
members; the former errors with EmptyExportList, the latter parses. -/
theorem cm_empty_export_list_witness :
    membersLoopF (fun _ => PathRes.err) 1
      ⟨[⟨.library, ⟨0, 7⟩⟩, ⟨.is, ⟨8, 10⟩⟩], 2, ⟨8, 10⟩⟩ [] =
      .ok ([], ⟨[⟨.library, ⟨0, 7⟩⟩, ⟨.is, ⟨8, 10⟩⟩], 2, ⟨8, 10⟩⟩)
    ∧ membersLoopF (fun _ => PathRes.err) 1
      ⟨[⟨.group, ⟨0, 7⟩⟩, ⟨.is, ⟨8, 10⟩⟩], 2, ⟨8, 10⟩⟩ [] =
      .ok ([], ⟨[⟨.group, ⟨0, 7⟩⟩, ⟨.is, ⟨8, 10⟩⟩], 2, ⟨8, 10⟩⟩)
    ∧ getCm (fun _ => PathRes.err) 1 [⟨.library, ⟨0, 7⟩⟩, ⟨.is, ⟨8, 10⟩⟩] =
      .error ⟨.emptyExportList, ⟨8, 10⟩⟩
    ∧ getCm (fun _ => PathRes.err) 1 [⟨.group, ⟨0, 7⟩⟩, ⟨.is, ⟨8, 10⟩⟩] =
      .ok ⟨.group, [], []⟩ :=
  ⟨rfl, rfl,
   (cm_empty_export_list (fun _ => PathRes.err) 0 ⟨0, 7⟩ ⟨8, 10⟩ [] [] _ _
      rfl rfl).1,
   (cm_empty_export_list (fun _ => PathRes.err) 0 ⟨0, 7⟩ ⟨8, 10⟩ [] [] _ _
      rfl rfl).2⟩

end CmP

namespace InputR

/-- A recognized group path keeps the path it was built from. -/
theorem groupPathNew_path (fs : Fs) (e : String) (gp : GroupPathBuf)
    (h : groupPathNew fs e = some gp) : gp.path = e := by
  unfold groupPathNew at h
  by_cases hf : fs.isFile e
  · simp [hf] at h
    rcases hx : extension e with _ | x
    · simp [hx] at h
    · simp [hx] at h
      split at h <;> first
        | (cases h; rfl)
        | simp_all
  · simp [hf] at h

/-- With no group entries the scan returns its accumulator. -/
theorem scanDir_no_groups (fs : Fs) (entries : List String)
    (acc : List GroupPathBuf)
    (h : entries.filter (fun e => (groupPathNew fs e).isSome) = []) :
    scanDir fs entries acc = .ok acc := by
  induction entries with
  | nil => rfl
  | cons e rest ih =>
    rw [List.filter_cons] at h
    rcases hg : groupPathNew fs e with _ | gp
    · rw [scanDir, hg]
      apply ih
      simpa [hg] using h
    · simp [hg] at h
  
/-- With a nonempty accumulator, the first group entry reports
MultipleRoots naming the accumulated path and that entry. -/
theorem scanDir_second (fs : Fs) (entries : List String)
    (gp : GroupPathBuf) (b : String) (rest2 : List String)
    (h : entries.filter (fun e => (groupPathNew fs e).isSome) = b :: rest2) :
    scanDir fs entries [gp] =
      .error ⟨some gp.path, b, .multipleRoots gp.path b⟩ := by
  induction entries with
  | nil => simp at h
  | cons e rest ih =>
    rw [List.filter_cons] at h
    rcases hg : groupPathNew fs e with _ | gp2
    · rw [scanDir, hg]
      apply ih
      simpa [hg] using h
    · simp [hg] at h
      rw [scanDir, hg]
      simp [h.1]

/-- With at least two group entries the scan from the empty accumulator
reports MultipleRoots naming the first two. -/
theorem scanDir_multiple (fs : Fs) (entries : List String)
    (a b : String) (rest2 : List String)
    (h : entries.filter (fun e => (groupPathNew fs e).isSome)
      = a :: b :: rest2) :
    scanDir fs entries [] = .error ⟨some a, b, .multipleRoots a b⟩ := by
  induction entries with
  | nil => simp at h
  | cons e rest ih =>
    rw [List.filter_cons] at h
    rcases hg : groupPathNew fs e with _ | gp
    · rw [scanDir, hg]
      apply ih
      simpa [hg] using h
    · simp [hg] at h
      rw [scanDir, hg]
      simp only [List.head?_nil, List.nil_append]
      have hp : gp.path = e := groupPathNew_path fs e gp hg
      rw [scanDir_second fs rest gp b rest2 (by simp [h.2])]
      rw [hp, h.1]

/-- C9: when the config file does not determine a root group (here: there
is no config file), a root directory containing no group file fails with
NoRoot, and one containing two or more group files fails with
MultipleRoots naming the first two of them. -/
theorem root_discovery (fs : Fs) (tomlParse : String → Option ConfigRoot)
    (store : Store) (root : String) (entries : List String)
    (hcfg : fs.readToString (root ++ "/" ++ configFileName) = Option.none)
    (hdir : fs.readDirF root = some entries) :
    ((entries.filter (fun e => (groupPathNew fs e).isSome)) = [] →
      rootNew fs tomlParse store root =
        .error ⟨Option.none, root, .noRoot false⟩)
    ∧ (∀ a b rest2,
      entries.filter (fun e => (groupPathNew fs e).isSome) = a :: b :: rest2 →
      rootNew fs tomlParse store root =
        .error ⟨some a, b, .multipleRoots a b⟩) := by
  constructor
  · intro h
    rw [rootNew]
    simp only [hcfg, hdir, Option.isSome]
    rw [scanDir_no_groups fs entries [] h]
    rfl
  · intro a b rest2 h
    rw [rootNew]
    simp only [hcfg, hdir, Option.isSome]
    rw [scanDir_multiple fs entries a b rest2 h]
    rfl

end InputR

namespace InputR

/-- Witness for C9: a concrete root directory with no config file; with
two group files a.cm and b.mlb the discovery fails with MultipleRoots
naming them, and with none of the entries a group file it fails with
NoRoot. -/
theorem root_discovery_witness :
    (Fs.readToString
      ⟨fun _ => Option.none,
       fun p => if p = "r" then some ["r/x.txt", "r/a.cm", "r/b.mlb"]
                else if p = "q" then some ["q/x.txt"] else Option.none,
       fun p => p == "r/a.cm" || p == "r/b.mlb",
       fun _ => Option.none, fun p => some p⟩
      ("r" ++ "/" ++ configFileName) = Option.none)
    ∧ (["r/x.txt", "r/a.cm", "r/b.mlb"].filter (fun e =>
        (groupPathNew
          ⟨fun _ => Option.none,
           fun p => if p = "r" then some ["r/x.txt", "r/a.cm", "r/b.mlb"]
                    else if p = "q" then some ["q/x.txt"] else Option.none,
           fun p => p == "r/a.cm" || p == "r/b.mlb",
           fun _ => Option.none, fun p => some p⟩ e).isSome)
        = ["r/a.cm", "r/b.mlb"])
    ∧ rootNew
        ⟨fun _ => Option.none,
         fun p => if p = "r" then some ["r/x.txt", "r/a.cm", "r/b.mlb"]
                  else if p = "q" then some ["q/x.txt"] else Option.none,
         fun p => p == "r/a.cm" || p == "r/b.mlb",
         fun _ => Option.none, fun p => some p⟩
        (fun _ => Option.none) ⟨[]⟩ "r" =
        .error ⟨some "r/a.cm", "r/b.mlb", .multipleRoots "r/a.cm" "r/b.mlb"⟩
    ∧ rootNew
        ⟨fun _ => Option.none,
         fun p => if p = "r" then some ["r/x.txt", "r/a.cm", "r/b.mlb"]
                  else if p = "q" then some ["q/x.txt"] else Option.none,
         fun p => p == "r/a.cm" || p == "r/b.mlb",
         fun _ => Option.none, fun p => some p⟩
        (fun _ => Option.none) ⟨[]⟩ "q" =
        .error ⟨Option.none, "q", .noRoot false⟩ :=
  ⟨rfl, rfl,
   (root_discovery _ (fun _ => Option.none) ⟨[]⟩ "r"
      ["r/x.txt", "r/a.cm", "r/b.mlb"] rfl rfl).2 "r/a.cm" "r/b.mlb" [] rfl,
   (root_discovery _ (fun _ => Option.none) ⟨[]⟩ "q" ["q/x.txt"]
      rfl rfl).1 rfl⟩

end InputR

namespace Statics

/-- Structural induction over Ty through the nested row and argument
lists. -/
theorem Ty.inductionOn {P : Ty → Prop}
    (hnone : P .none) (hbv : ∀ n, P (.boundVar n)) (hmv : ∀ n, P (.metaVar n))
    (hfv : ∀ n, P (.fixedVar n))
    (hrec : ∀ rows, (∀ p ∈ rows, P p.2) → P (.record rows))
    (hcon : ∀ args sym, (∀ t ∈ args, P t) → P (.con args sym))
    (hfn : ∀ p r, P p → P r → P (.fn p r)) : ∀ t, P t
  | .none => hnone
  | .boundVar n => hbv n
  | .metaVar n => hmv n
  | .fixedVar n => hfv n
  | .record rows => hrec rows (fun p _ =>
      Ty.inductionOn hnone hbv hmv hfv hrec hcon hfn p.2)
  | .con args sym => hcon args sym (fun t _ =>
      Ty.inductionOn hnone hbv hmv hfv hrec hcon hfn t)
  | .fn p r => hfn p r (Ty.inductionOn hnone hbv hmv hfv hrec hcon hfn p)
      (Ty.inductionOn hnone hbv hmv hfv hrec hcon hfn r)
termination_by t => sizeOf t
decreasing_by
  all_goals simp_wf
  all_goals try omega
  · have := List.sizeOf_lt_of_mem ‹p ∈ rows›
    obtain ⟨a, b⟩ := p
    simp at this ⊢
    omega
  · have := List.sizeOf_lt_of_mem ‹t ∈ args›
    omega

/-- Inserting returns the previous entry of the key. -/
theorem Subst.insert_fst (s : Subst) (mv : Nat) (e : SubstEntry) :
    (s.insert mv e).1 = s.get mv := by
  induction s with
  | nil => rfl
  | cons p rest ih =>
    by_cases h : p.1 = mv
    · simp [Subst.insert, Subst.get, h]
    · simp [Subst.insert, Subst.get, h, ih]

/-- Lookup after insertion. -/
theorem Subst.get_insert (s : Subst) (mv : Nat) (e : SubstEntry) (mv' : Nat) :
    ((s.insert mv e).2).get mv' =
      if mv' = mv then some e else s.get mv' := by
  induction s with
  | nil =>
    simp only [Subst.insert, Subst.get]
    by_cases h : mv' = mv
    · simp [h]
    · have h' : ¬ (mv = mv') := fun he => h he.symm
      simp [h, h']
  | cons p rest ih =>
    simp only [Subst.insert]
    by_cases h : p.1 = mv
    · simp only [if_pos h]
      by_cases h2 : mv' = mv
      · simp [Subst.get, h2]
      · have h' : ¬ (mv = mv') := fun he => h2 he.symm
        have h3 : ¬ (p.1 = mv') := by rw [h]; exact h'
        simp [Subst.get, h2, h', h3]
    · simp only [if_neg h]
      by_cases h2 : p.1 = mv'
      · have h4 : ¬ (mv' = mv) := fun he => h (h2.trans he)
        simp [Subst.get, h2, h4]
      · simp [Subst.get, h2, ih]

/-- Solved-lookup after insertion. -/
theorem Subst.getSolved_insert (s : Subst) (mv : Nat) (e : SubstEntry)
    (mv' : Nat) :
    ((s.insert mv e).2).getSolved mv' =
      if mv' = mv then
        (match e with | .solved t => some t | .kind _ => Option.none)
      else s.getSolved mv' := by
  by_cases h : mv' = mv
  · cases e <;> simp [Subst.getSolved, Subst.get_insert, h]
  · simp [Subst.getSolved, Subst.get_insert, h]

/-- Fuel monotonicity of apply: a produced result survives more fuel. -/
theorem applyO_mono : ∀ (k : Nat) (s : Subst),
    (∀ ty r, applyO k s ty = some r → applyO (k + 1) s ty = some r)
    ∧ (∀ rows r, applyRowsO k s rows = some r →
        applyRowsO (k + 1) s rows = some r)
    ∧ (∀ l r, applyListO k s l = some r → applyListO (k + 1) s l = some r) := by
  intro k
  induction k with
  | zero => intro s; refine ⟨?_, ?_, ?_⟩ <;> intro x r h <;> simp [applyO, applyRowsO, applyListO] at h
  | succ k ih =>
    intro s
    refine ⟨?_, ?_, ?_⟩
    · intro ty r h
      cases ty with
      | none => simpa [applyO] using h
      | boundVar n => simpa [applyO] using h
      | fixedVar n => simpa [applyO] using h
      | metaVar mv =>
        rw [applyO] at h ⊢
        cases hg : s.get mv with
        | none => rw [hg] at h; exact h
        | some e =>
          cases e with
          | solved t => rw [hg] at h; exact (ih s).1 t r h
          | kind kk => rw [hg] at h; exact h
      | record rows =>
        rw [applyO] at h ⊢
        cases hr : applyRowsO k s rows with
        | none => rw [hr] at h; simp at h
        | some rows' =>
          rw [hr] at h
          rw [(ih s).2.1 rows rows' hr]
          exact h
      | con args sym =>
        rw [applyO] at h ⊢
        cases hr : applyListO k s args with
        | none => rw [hr] at h; simp at h
        | some args' =>
          rw [hr] at h
          rw [(ih s).2.2 args args' hr]
          exact h
      | fn param res =>
        rw [applyO] at h ⊢
        cases hp : applyO k s param with
        | none => rw [hp] at h; simp [Option.bind] at h
        | some p' =>
          rw [hp] at h
          cases hq : applyO k s res with
          | none => rw [hq] at h; simp [Option.bind] at h
          | some r' =>
            rw [hq] at h
            rw [(ih s).1 param p' hp, (ih s).1 res r' hq]
            exact h
    · intro rows r h
      cases rows with
      | nil => simpa [applyRowsO] using h
      | cons p rest =>
        rw [applyRowsO] at h ⊢
        cases hp : applyO k s p.2 with
        | none => rw [hp] at h; simp [Option.bind] at h
        | some t' =>
          rw [hp] at h
          cases hq : applyRowsO k s rest with
          | none => rw [hq] at h; simp [Option.bind] at h
          | some rest' =>
            rw [hq] at h
            rw [(ih s).1 p.2 t' hp, (ih s).2.1 rest rest' hq]
            exact h
    · intro l r h
      cases l with
      | nil => simpa [applyListO] using h
      | cons t rest =>
        rw [applyListO] at h ⊢
        cases hp : applyO k s t with
        | none => rw [hp] at h; simp [Option.bind] at h
        | some t' =>
          rw [hp] at h
          cases hq : applyListO k s rest with
          | none => rw [hq] at h; simp [Option.bind] at h
          | some rest' =>
            rw [hq] at h
            rw [(ih s).1 t t' hp, (ih s).2.2 rest rest' hq]
            exact h

/-- Fuel monotonicity, up to any larger fuel. -/
theorem applyO_mono_le {k j : Nat} {s : Subst} {ty r : Ty}
    (hkj : k ≤ j) (h : applyO k s ty = some r) : applyO j s ty = some r := by
  induction j with
  | zero =>
    have : k = 0 := Nat.le_zero.mp hkj
    rw [this] at h
    exact h
  | succ j ih =>
    rcases Nat.lt_or_ge k (j + 1) with hlt | hge
    · exact (applyO_mono j s).1 ty r (ih (Nat.lt_succ_iff.mp hlt))
    · have : k = j + 1 := Nat.le_antisymm hkj hge
      rw [this] at h
      exact h

/-- Fuel monotonicity for rows, up to any larger fuel. -/
theorem applyRowsO_mono_le {k j : Nat} {s : Subst}
    {rows r : List (Lab × Ty)} (hkj : k ≤ j)
    (h : applyRowsO k s rows = some r) : applyRowsO j s rows = some r := by
  induction j with
  | zero =>
    have : k = 0 := Nat.le_zero.mp hkj
    rw [this] at h
    exact h
  | succ j ih =>
    rcases Nat.lt_or_ge k (j + 1) with hlt | hge
    · exact (applyO_mono j s).2.1 rows r (ih (Nat.lt_succ_iff.mp hlt))
    · have : k = j + 1 := Nat.le_antisymm hkj hge
      rw [this] at h
      exact h

/-- Fuel monotonicity for argument lists, up to any larger fuel. -/
theorem applyListO_mono_le {k j : Nat} {s : Subst} {l r : List Ty}
    (hkj : k ≤ j) (h : applyListO k s l = some r) :
    applyListO j s l = some r := by
  induction j with
  | zero =>
    have : k = 0 := Nat.le_zero.mp hkj
    rw [this] at h
    exact h
  | succ j ih =>
    rcases Nat.lt_or_ge k (j + 1) with hlt | hge
    · exact (applyO_mono j s).2.2 l r (ih (Nat.lt_succ_iff.mp hlt))
    · have : k = j + 1 := Nat.le_antisymm hkj hge
      rw [this] at h
      exact h

/-- Apply is a function of its type argument: results are unique. -/
theorem Apply_unique {s : Subst} {ty r1 r2 : Ty}
    (h1 : Apply s ty r1) (h2 : Apply s ty r2) : r1 = r2 := by
  obtain ⟨k1, h1⟩ := h1
  obtain ⟨k2, h2⟩ := h2
  rcases Nat.le_total k1 k2 with h | h
  · have := applyO_mono_le h h1
    rw [this] at h2
    exact (Option.some.injEq _ _).mp h2
  · have := applyO_mono_le h h2
    rw [this] at h1
    exact (Option.some.injEq _ _).mp h1.symm

/-- An empty substitution solves nothing. -/
theorem Subst.getSolved_nil (mv : Nat) :
    Subst.getSolved [] mv = Option.none := rfl

/-- Every type is normal for the empty substitution. -/
theorem SNormal_nil (ty : Ty) : SNormal [] ty :=
  fun _ _ => rfl

/-- Rows whose element types each apply to themselves apply to
themselves. -/
theorem applyRowsO_of_elem (s : Subst) :
    ∀ rows : List (Lab × Ty),
      (∀ p ∈ rows, ∃ k, applyO k s p.2 = some p.2) →
      ∃ k, applyRowsO k s rows = some rows := by
  intro rows h
  induction rows with
  | nil => exact ⟨1, rfl⟩
  | cons p rest ih =>
    obtain ⟨k1, h1⟩ := h p (by simp)
    obtain ⟨k2, h2⟩ := ih (fun q hq => h q (by simp [hq]))
    refine ⟨max k1 k2 + 1, ?_⟩
    rw [applyRowsO]
    rw [applyO_mono_le (Nat.le_max_left k1 k2) h1]
    rw [applyRowsO_mono_le (Nat.le_max_right k1 k2) h2]
    rfl

/-- Lists whose element types each apply to themselves apply to
themselves. -/
theorem applyListO_of_elem (s : Subst) :
    ∀ l : List Ty,
      (∀ t ∈ l, ∃ k, applyO k s t = some t) →
      ∃ k, applyListO k s l = some l := by
  intro l h
  induction l with
  | nil => exact ⟨1, rfl⟩
  | cons t rest ih =>
    obtain ⟨k1, h1⟩ := h t (by simp)
    obtain ⟨k2, h2⟩ := ih (fun q hq => h q (by simp [hq]))
    refine ⟨max k1 k2 + 1, ?_⟩
    rw [applyListO]
    rw [applyO_mono_le (Nat.le_max_left k1 k2) h1]
    rw [applyListO_mono_le (Nat.le_max_right k1 k2) h2]
    rfl

/-- Membership in row meta variables from a member row. -/
theorem mvarsRows_mem (rows : List (Lab × Ty)) (p : Lab × Ty)
    (hp : p ∈ rows) (mv : Nat) (hmv : mv ∈ mvars p.2) :
    mv ∈ mvarsRows rows := by
  induction rows with
  | nil => cases hp
  | cons q rest ih =>
    rcases List.mem_cons.mp hp with hp | hp
    · rw [hp] at hmv
      simp [mvarsRows, List.mem_append, hmv]
    · simp [mvarsRows, List.mem_append, ih hp]

/-- Membership in list meta variables from a member type. -/
theorem mvarsList_mem (l : List Ty) (t : Ty) (ht : t ∈ l) (mv : Nat)
    (hmv : mv ∈ mvars t) : mv ∈ mvarsList l := by
  induction l with
  | nil => cases ht
  | cons q rest ih =>
    rcases List.mem_cons.mp ht with ht | ht
    · rw [ht] at hmv
      simp [mvarsList, List.mem_append, hmv]
    · simp [mvarsList, List.mem_append, ih ht]

/-- Applying a substitution to a type all of whose meta variables are
unsolved returns the type unchanged. -/
theorem applyO_of_normal (s : Subst) :
    ∀ ty : Ty, SNormal s ty → ∃ k, applyO k s ty = some ty := by
  intro ty
  induction ty using Ty.inductionOn with
  | hnone => exact fun _ => ⟨1, rfl⟩
  | hbv n => exact fun _ => ⟨1, rfl⟩
  | hfv n => exact fun _ => ⟨1, rfl⟩
  | hmv n =>
    intro h
    refine ⟨1, ?_⟩
    have := h n (by simp [mvars])
    rw [applyO]
    unfold Subst.getSolved at this
    cases hg : Subst.get s n with
    | none => rfl
    | some e =>
      cases e with
      | solved t => rw [hg] at this; simp at this
      | kind kk => rfl
  | hrec rows ih =>
    intro h
    obtain ⟨k, hk⟩ := applyRowsO_of_elem s rows (fun p hp => ih p hp
      (fun mv hmv => h mv (by
        simp only [mvars]
        exact mvarsRows_mem rows p hp mv hmv)))
    exact ⟨k + 1, by rw [applyO, hk]; rfl⟩
  | hcon args sym ih =>
    intro h
    obtain ⟨k, hk⟩ := applyListO_of_elem s args (fun t ht => ih t ht
      (fun mv hmv => h mv (by
        simp only [mvars]
        exact mvarsList_mem args t ht mv hmv)))
    exact ⟨k + 1, by rw [applyO, hk]; rfl⟩
  | hfn p r ihp ihr =>
    intro h
    obtain ⟨k1, h1⟩ := ihp (fun mv hmv => h mv (by simp [mvars, hmv]))
    obtain ⟨k2, h2⟩ := ihr (fun mv hmv => h mv (by simp [mvars, hmv]))
    refine ⟨max k1 k2 + 1, ?_⟩
    rw [applyO]
    rw [applyO_mono_le (Nat.le_max_left k1 k2) h1]
    rw [applyO_mono_le (Nat.le_max_right k1 k2) h2]
    rfl


/-- Apply results are normal: every meta variable of a produced result is
unsolved. -/
theorem applyO_normal : ∀ (k : Nat) (s : Subst),
    (∀ ty r, applyO k s ty = some r → SNormal s r)
    ∧ (∀ rows r, applyRowsO k s rows = some r → SNormalRows s r)
    ∧ (∀ l r, applyListO k s l = some r → SNormalList s r) := by
  intro k
  induction k with
  | zero =>
    intro s
    refine ⟨?_, ?_, ?_⟩ <;>
      intro x r h <;> simp [applyO, applyRowsO, applyListO] at h
  | succ k ih =>
    intro s
    refine ⟨?_, ?_, ?_⟩
    · intro ty r h
      cases ty with
      | none =>
        rw [applyO] at h
        cases h
        intro mv hmv
        simp [mvars] at hmv
      | boundVar n =>
        rw [applyO] at h
        cases h
        intro mv hmv
        simp [mvars] at hmv
      | fixedVar n =>
        rw [applyO] at h
        cases h
        intro mv hmv
        simp [mvars] at hmv
      | metaVar mv =>
        rw [applyO] at h
        cases hg : Subst.get s mv with
        | none =>
          rw [hg] at h
          cases h
          intro mv2 hmv2
          simp [mvars] at hmv2
          rw [hmv2]
          simp [Subst.getSolved, hg]
        | some e =>
          cases e with
          | solved t =>
            rw [hg] at h
            exact (ih s).1 t r h
          | kind kk =>
            rw [hg] at h
            cases h
            intro mv2 hmv2
            simp [mvars] at hmv2
            rw [hmv2]
            simp [Subst.getSolved, hg]
      | record rows =>
        rw [applyO] at h
        cases hr : applyRowsO k s rows with
        | none => rw [hr] at h; simp at h
        | some rows' =>
          rw [hr] at h
          simp at h
          rw [← h]
          intro mv hmv
          simp only [mvars] at hmv
          exact (ih s).2.1 rows rows' hr mv hmv
      | con args sym =>
        rw [applyO] at h
        cases hr : applyListO k s args with
        | none => rw [hr] at h; simp at h
        | some args' =>
          rw [hr] at h
          simp at h
          rw [← h]
          intro mv hmv
          simp only [mvars] at hmv
          exact (ih s).2.2 args args' hr mv hmv
      | fn param res =>
        rw [applyO] at h
        cases hp : applyO k s param with
        | none => rw [hp] at h; simp [Option.bind] at h
        | some p' =>
          rw [hp] at h
          cases hq : applyO k s res with
          | none => rw [hq] at h; simp [Option.bind] at h
          | some r' =>
            rw [hq] at h
            simp [Option.bind] at h
            rw [← h]
            intro mv hmv
            simp only [mvars, List.mem_append] at hmv
            rcases hmv with hmv | hmv
            · exact (ih s).1 param p' hp mv hmv
            · exact (ih s).1 res r' hq mv hmv
    · intro rows r h
      cases rows with
      | nil =>
        rw [applyRowsO] at h
        cases h
        intro mv hmv
        simp [mvarsRows] at hmv
      | cons p rest =>
        rw [applyRowsO] at h
        cases hp : applyO k s p.2 with
        | none => rw [hp] at h; simp [Option.bind] at h
        | some t' =>
          rw [hp] at h
          cases hq : applyRowsO k s rest with
          | none => rw [hq] at h; simp [Option.bind] at h
          | some rest' =>
            rw [hq] at h
            simp [Option.bind] at h
            rw [← h]
            intro mv hmv
            simp only [mvarsRows, List.mem_append] at hmv
            rcases hmv with hmv | hmv
            · exact (ih s).1 p.2 t' hp mv hmv
            · exact (ih s).2.1 rest rest' hq mv hmv
    · intro l r h
      cases l with
      | nil =>
        rw [applyListO] at h
        cases h
        intro mv hmv
        simp [mvarsList] at hmv
      | cons t rest =>
        rw [applyListO] at h
        cases hp : applyO k s t with
        | none => rw [hp] at h; simp [Option.bind] at h
        | some t' =>
          rw [hp] at h
          cases hq : applyListO k s rest with
          | none => rw [hq] at h; simp [Option.bind] at h
          | some rest' =>
            rw [hq] at h
            simp [Option.bind] at h
            rw [← h]
            intro mv hmv
            simp only [mvarsList, List.mem_append] at hmv
            rcases hmv with hmv | hmv
            · exact (ih s).1 t t' hp mv hmv
            · exact (ih s).2.2 rest rest' hq mv hmv

/-- Applying to an unsolved meta variable leaves it unchanged. -/
theorem applyO_mv_nil (k : Nat) (mv : Nat) :
    applyO (k + 1) [] (.metaVar mv) = some (.metaVar mv) := rfl

/-- C1 counterexample: unifying a meta variable with itself succeeds with
no change although the variable occurs (syntactically) in the right-hand
side, so the claim that every occurrence fails the occurs check is false
at T equal to the variable itself. -/
theorem unify_same_mv_ok :
    unifyF 2 [] (.metaVar 0) (.metaVar 0) = .ok []
    ∧ occurs 0 (.metaVar 0) = true :=
  ⟨rfl, rfl⟩

/-- C1 amended: for the empty substitution (so that occurrence is
syntactic), whenever the meta variable alpha occurs in T and T is not
alpha itself, unification of alpha with T fails with the occurs-check
error, reported as Circularity. -/
theorem unify_occurs_check (α : Nat) (T : Ty)
    (hocc : occurs α T = true) (hne : sameMv α T = false) :
    (∃ k, applyO k [] T = some T)
    ∧ ∀ k, applyO k [] T = some T →
        unifyF (k + 1) [] (.metaVar α) T = .error (.occursCheck α T)
        ∧ toErrorKind (.metaVar α) T (.occursCheck α T) =
            some (.circularity α T) := by
  constructor
  · exact applyO_of_normal [] T (SNormal_nil T)
  · intro k h
    refine ⟨?_, rfl⟩
    match k, h with
    | k + 1, h =>
      rw [unifyF, applyO_mv_nil, h]
      cases T with
      | none => simp [occurs] at hocc
      | boundVar n => simp [unifyMv, hne, hocc]
      | metaVar n => simp [unifyMv, hne, hocc]
      | fixedVar n => simp [unifyMv, hne, hocc]
      | record rows => simp [unifyMv, hne, hocc]
      | con args sym => simp [unifyMv, hne, hocc]
      | fn p r => simp [unifyMv, hne, hocc]

/-- Witness for C1 amended: alpha occurring under a function type. -/
theorem unify_occurs_check_witness :
    occurs 0 (.fn (.metaVar 0) (.con [] 1)) = true
    ∧ sameMv 0 (.fn (.metaVar 0) (.con [] 1)) = false
    ∧ applyO 3 [] (.fn (.metaVar 0) (.con [] 1)) =
        some (.fn (.metaVar 0) (.con [] 1))
    ∧ unifyF 4 [] (.metaVar 0) (.fn (.metaVar 0) (.con [] 1)) =
        .error (.occursCheck 0 (.fn (.metaVar 0) (.con [] 1)))
    ∧ toErrorKind (.metaVar 0) (.fn (.metaVar 0) (.con [] 1))
        (.occursCheck 0 (.fn (.metaVar 0) (.con [] 1))) =
        some (.circularity 0 (.fn (.metaVar 0) (.con [] 1))) :=
  ⟨rfl, rfl, rfl,
   ((unify_occurs_check 0 (.fn (.metaVar 0) (.con [] 1)) rfl rfl).2 3 rfl).1,
   ((unify_occurs_check 0 (.fn (.metaVar 0) (.con [] 1)) rfl rfl).2 3 rfl).2⟩

/-- Applying to a meta variable with only a kind entry leaves it
unchanged. -/
theorem applyO_kind (k : Nat) (s : Subst) (mv : Nat) (kk : TyVarKind)
    (h : s.get mv = some (.kind kk)) :
    applyO (k + 1) s (.metaVar mv) = some (.metaVar mv) := by
  rw [applyO, h]

/-- C3 counterexample: the overload classes O1 = real-int and
O2 = word-int intersect (int is in both), so the claim requires the
unification of two meta variables constrained by them to succeed with the
intersection as the result; the code instead fails with OverloadMismatch
because O2 is not contained in O1. -/
theorem unify_overload_intersection_fails :
    unifyF 3 [(0, .kind (.overloaded (.composite [.real, .int]))),
              (1, .kind (.overloaded (.composite [.word, .int])))]
      (.metaVar 0) (.metaVar 1) =
      .error (.overloadMismatch (.composite [.real, .int]))
    ∧ (1 : Nat) ∈ (Overload.composite [.real, .int]).to_syms
    ∧ (1 : Nat) ∈ (Overload.composite [.word, .int]).to_syms :=
  ⟨rfl, by decide, by decide⟩

/-- C3 amended: when a meta variable constrained by overload O1 meets a
meta variable constrained by O2, unification succeeds exactly when the
syms of O2 are contained in the syms of O1, and then the first variable
is solved to the second and the second keeps the whole of O1 (not the
intersection); when a meta variable constrained by O1 meets a nullary
constructor type Con([], s), unification succeeds exactly when s is a sym
of O1, solving the variable to that type, and otherwise fails with
OverloadMismatch carrying O1. -/
theorem unify_overload_fusion :
    (∀ (s : Subst) (mv1 mv2 : Nat) (O1 O2 : Overload) (k : Nat),
      s.get mv1 = some (.kind (.overloaded O1)) →
      s.get mv2 = some (.kind (.overloaded O2)) →
      mv1 ≠ mv2 →
      ((∀ x ∈ O2.to_syms, x ∈ O1.to_syms) →
        unifyF (k + 2) s (.metaVar mv1) (.metaVar mv2) =
          .ok (((s.insert mv1 (.solved (.metaVar mv2))).2.insert mv2
            (.kind (.overloaded O1))).2)
        ∧ (((s.insert mv1 (.solved (.metaVar mv2))).2.insert mv2
            (.kind (.overloaded O1))).2).get mv2 =
            some (.kind (.overloaded O1))
        ∧ (((s.insert mv1 (.solved (.metaVar mv2))).2.insert mv2
            (.kind (.overloaded O1))).2).getSolved mv1 =
            some (.metaVar mv2))
      ∧ (¬ (∀ x ∈ O2.to_syms, x ∈ O1.to_syms) →
        unifyF (k + 2) s (.metaVar mv1) (.metaVar mv2) =
          .error (.overloadMismatch O1)))
    ∧ (∀ (s : Subst) (mv : Nat) (O1 : Overload) (sym : Nat) (k : Nat),
      s.get mv = some (.kind (.overloaded O1)) →
      ((sym ∈ O1.to_syms →
        unifyF (k + 3) s (.metaVar mv) (.con [] sym) =
          .ok ((s.insert mv (.solved (.con [] sym))).2)
        ∧ ((s.insert mv (.solved (.con [] sym))).2).getSolved mv =
            some (.con [] sym))
      ∧ (sym ∉ O1.to_syms →
        unifyF (k + 3) s (.metaVar mv) (.con [] sym) =
          .error (.overloadMismatch O1)))) := by
  constructor
  · intro s mv1 mv2 O1 O2 k h1 h2 hne
    have hb : (mv1 == mv2) = false := by
      simp [hne]
    have hne' : ¬ (mv2 = mv1) := fun he => hne he.symm
    have step : unifyF (k + 2) s (.metaVar mv1) (.metaVar mv2) =
        unifyMv s mv1 (.metaVar mv2) := by
      rw [unifyF, applyO_kind k s mv1 _ h1, applyO_kind k s mv2 _ h2]
    have hins1 : (s.insert mv1 (.solved (.metaVar mv2))).1 =
        some (.kind (.overloaded O1)) := by
      rw [Subst.insert_fst, h1]
    have hins2 : ((s.insert mv1 (.solved (.metaVar mv2))).2.insert mv2
        (.kind (.overloaded O1))).1 = some (.kind (.overloaded O2)) := by
      rw [Subst.insert_fst, Subst.get_insert]
      simp [hne', h2]
    have hmv : unifyMv s mv1 (.metaVar mv2) =
        (if (O2.to_syms).all (fun x => x ∈ O1.to_syms) then
          .ok (((s.insert mv1 (.solved (.metaVar mv2))).2.insert mv2
            (.kind (.overloaded O1))).2)
        else .error (.overloadMismatch O1)) := by
      rw [unifyMv]
      simp only [sameMv, hb, occurs, Bool.false_eq_true, if_false]
      rw [hins1]
      simp only []
      rw [hins2]
    constructor
    · intro hsub
      have hall : (O2.to_syms).all (fun x => x ∈ O1.to_syms) = true := by
        rw [List.all_eq_true]
        intro x hx
        simp [hsub x hx]
      refine ⟨?_, ?_, ?_⟩
      · rw [step, hmv, if_pos hall]
      · rw [Subst.get_insert]
        simp
      · rw [Subst.getSolved_insert]
        simp only [if_neg hne]
        rw [Subst.getSolved_insert]
        simp
    · intro hsub
      have hall : (O2.to_syms).all (fun x => x ∈ O1.to_syms) = false := by
        rw [Bool.eq_false_iff]
        intro hc
        apply hsub
        intro x hx
        have := List.all_eq_true.mp hc x hx
        simpa using this
      rw [step, hmv, if_neg (by simp [hall])]
  · intro s mv O1 sym k h1
    have step : unifyF (k + 3) s (.metaVar mv) (.con [] sym) =
        unifyMv s mv (.con [] sym) := by
      rw [unifyF, applyO_kind (k + 1) s mv _ h1]
      have : applyO (k + 2) s (.con [] sym) = some (.con [] sym) := by
        rw [applyO]
        have : applyListO (k + 1) s [] = some [] := by rw [applyListO]
        rw [this]
        rfl
      rw [this]
    have hins1 : (s.insert mv (.solved (.con [] sym))).1 =
        some (.kind (.overloaded O1)) := by
      rw [Subst.insert_fst, h1]
    constructor
    · intro hsym
      have hmv : unifyMv s mv (.con [] sym) =
          .ok ((s.insert mv (.solved (.con [] sym))).2) := by
        rw [unifyMv]
        simp only [sameMv, occurs, occursList, Bool.false_eq_true, if_false]
        rw [hins1]
        simp [hsym]
      refine ⟨by rw [step, hmv], ?_⟩
      rw [Subst.getSolved_insert]
      simp
    · intro hsym
      have hmv : unifyMv s mv (.con [] sym) =
          .error (.overloadMismatch O1) := by
        rw [unifyMv]
        simp only [sameMv, occurs, occursList, Bool.false_eq_true, if_false]
        rw [hins1]
        simp [hsym]
      rw [step, hmv]

/-- Witness for C3 amended: word-int contained in num succeeds keeping
num on the solved-to variable; int solved against the int sym. -/
theorem unify_overload_fusion_witness :
    Subst.get [(0, .kind (.overloaded (.composite [.int, .real, .word]))),
      (1, .kind (.overloaded (.composite [.word, .int])))] 0 =
      some (.kind (.overloaded (.composite [.int, .real, .word])))
    ∧ unifyF 2 [(0, .kind (.overloaded (.composite [.int, .real, .word]))),
                (1, .kind (.overloaded (.composite [.word, .int])))]
        (.metaVar 0) (.metaVar 1) =
        .ok [(0, .solved (.metaVar 1)),
             (1, .kind (.overloaded (.composite [.int, .real, .word])))]
    ∧ unifyF 3 [(5, .kind (.overloaded (.basic .int)))]
        (.metaVar 5) (.con [] 1) =
        .ok [(5, .solved (.con [] 1))] := by
  refine ⟨rfl, ?_, ?_⟩
  · exact (((unify_overload_fusion.1
      [(0, .kind (.overloaded (.composite [.int, .real, .word]))),
       (1, .kind (.overloaded (.composite [.word, .int])))]
      0 1 (.composite [.int, .real, .word]) (.composite [.word, .int]) 0
      rfl rfl (by decide)).1 (by decide)).1)
  · exact (((unify_overload_fusion.2
      [(5, .kind (.overloaded (.basic .int)))] 5 (.basic .int) 1 0
      rfl).1 (by decide)).1)

/-- C2 counterexample: unify(None, int) succeeds without binding anything
(the None poison unifies with anything silently, as the spec's own error
handling section states), yet applying the resulting substitution leaves
None on one side and int on the other — not structurally equal types. -/
theorem unify_none_not_sound :
    unifyF 3 [] Ty.none (.con [] 1) = .ok []
    ∧ applyO 3 [] Ty.none = some Ty.none
    ∧ applyO 3 [] (.con [] 1) = some (.con [] 1)
    ∧ Ty.none ≠ Ty.con [] 1 :=
  ⟨rfl, rfl, rfl, fun h => Ty.noConfusion h⟩

/-- Solved lookups are solved entries. -/
theorem Subst.getSolved_eq_some {s : Subst} {mv : Nat} {t : Ty} :
    s.getSolved mv = some t ↔ s.get mv = some (.solved t) := by
  unfold Subst.getSolved
  cases hg : s.get mv with
  | none => simp
  | some e =>
    cases e with
    | solved t2 => simp
    | kind kk => simp

/-- Rows whose members all have the occurrence property have it. -/
theorem occursRows_of_mem (rows : List (Lab × Ty))
    (h : ∀ p ∈ rows, ∀ x ∈ mvars p.2, occurs x p.2 = true) :
    ∀ x ∈ mvarsRows rows, occursRows x rows = true := by
  induction rows with
  | nil => intro x hx; simp [mvarsRows] at hx
  | cons p rest ih =>
    intro x hx
    simp only [mvarsRows, List.mem_append] at hx
    simp only [occursRows, Bool.or_eq_true]
    rcases hx with hx | hx
    · exact Or.inl (h p (by simp) x hx)
    · exact Or.inr (ih (fun q hq => h q (by simp [hq])) x hx)

/-- Lists whose members all have the occurrence property have it. -/
theorem occursList_of_mem (l : List Ty)
    (h : ∀ t ∈ l, ∀ x ∈ mvars t, occurs x t = true) :
    ∀ x ∈ mvarsList l, occursList x l = true := by
  induction l with
  | nil => intro x hx; simp [mvarsList] at hx
  | cons t rest ih =>
    intro x hx
    simp only [mvarsList, List.mem_append] at hx
    simp only [occursList, Bool.or_eq_true]
    rcases hx with hx | hx
    · exact Or.inl (h t (by simp) x hx)
    · exact Or.inr (ih (fun q hq => h q (by simp [hq])) x hx)

/-- A member of the meta variables occurs. -/
theorem occurs_of_mem :
    ∀ ty : Ty, ∀ x ∈ mvars ty, occurs x ty = true := by
  intro ty
  induction ty using Ty.inductionOn with
  | hnone => intro x hx; simp [mvars] at hx
  | hbv n => intro x hx; simp [mvars] at hx
  | hfv n => intro x hx; simp [mvars] at hx
  | hmv n =>
    intro x hx
    simp [mvars] at hx
    simp [occurs, hx]
  | hrec rows ih =>
    intro x hx
    simp only [mvars] at hx
    simp only [occurs]
    exact occursRows_of_mem rows ih x hx
  | hcon args sym ih =>
    intro x hx
    simp only [mvars] at hx
    simp only [occurs]
    exact occursList_of_mem args ih x hx
  | hfn p r ihp ihr =>
    intro x hx
    simp only [mvars, List.mem_append] at hx
    simp only [occurs, Bool.or_eq_true]
    rcases hx with hx | hx
    · exact Or.inl (ihp x hx)
    · exact Or.inr (ihr x hx)

/-- Non-occurrence excludes membership. -/
theorem not_mem_of_occurs_false {mv : Nat} {ty : Ty}
    (h : occurs mv ty = false) : mv ∉ mvars ty := by
  intro hmem
  rw [occurs_of_mem ty mv hmem] at h
  cases h

/-- Row None-freedom is element-wise. -/
theorem noneFreeRows_iff (rows : List (Lab × Ty)) :
    noneFreeRows rows = true ↔ ∀ p ∈ rows, noneFree p.2 = true := by
  induction rows with
  | nil => simp [noneFreeRows]
  | cons p rest ih =>
    simp only [noneFreeRows, Bool.and_eq_true, ih, List.mem_cons]
    constructor
    · rintro ⟨h1, h2⟩ q hq
      rcases hq with rfl | hq
      · exact h1
      · exact h2 q hq
    · intro h
      exact ⟨h p (Or.inl rfl), fun q hq => h q (Or.inr hq)⟩

/-- List None-freedom is element-wise. -/
theorem noneFreeList_iff (l : List Ty) :
    noneFreeList l = true ↔ ∀ t ∈ l, noneFree t = true := by
  induction l with
  | nil => simp [noneFreeList]
  | cons t rest ih =>
    simp only [noneFreeList, Bool.and_eq_true, ih, List.mem_cons]
    constructor
    · rintro ⟨h1, h2⟩ q hq
      rcases hq with rfl | hq
      · exact h1
      · exact h2 q hq
    · intro h
      exact ⟨h t (Or.inl rfl), fun q hq => h q (Or.inr hq)⟩

/-- Row well-formedness of values is element-wise. -/
theorem wfRows_iff (rows : List (Lab × Ty)) :
    wfRows rows = true ↔ ∀ p ∈ rows, wf p.2 = true := by
  induction rows with
  | nil => simp [wfRows]
  | cons p rest ih =>
    simp only [wfRows, Bool.and_eq_true, ih, List.mem_cons]
    constructor
    · rintro ⟨h1, h2⟩ q hq
      rcases hq with rfl | hq
      · exact h1
      · exact h2 q hq
    · intro h
      exact ⟨h p (Or.inl rfl), fun q hq => h q (Or.inr hq)⟩

/-- List well-formedness is element-wise. -/
theorem wfList_iff (l : List Ty) :
    wfList l = true ↔ ∀ t ∈ l, wf t = true := by
  induction l with
  | nil => simp [wfList]
  | cons t rest ih =>
    simp only [wfList, Bool.and_eq_true, ih, List.mem_cons]
    constructor
    · rintro ⟨h1, h2⟩ q hq
      rcases hq with rfl | hq
      · exact h1
      · exact h2 q hq
    · intro h
      exact ⟨h t (Or.inl rfl), fun q hq => h q (Or.inr hq)⟩

/-- Sorted keys only depend on the label list. -/
theorem sortedKeys_of_labels_eq :
    ∀ (rows rows' : List (Lab × Ty)),
      rows.map Prod.fst = rows'.map Prod.fst →
      sortedKeys rows = sortedKeys rows'
  | [], [], _ => rfl
  | [], _ :: _, h => by simp at h
  | _ :: _, [], h => by simp at h
  | [p], [q], _ => rfl
  | [p], q :: q2 :: r', h => by simp at h
  | p :: p2 :: r, [q], h => by simp at h
  | p :: p2 :: r, q :: q2 :: r', h => by
    simp only [List.map_cons, List.cons.injEq] at h
    simp only [sortedKeys]
    rw [h.1, h.2.1]
    rw [sortedKeys_of_labels_eq (p2 :: r) (q2 :: r')
      (by simp [h.2.1, h.2.2])]

/-- Apply preserves the labels of rows. -/
theorem applyRowsO_labels : ∀ (k : Nat) (s : Subst)
    (rows rows' : List (Lab × Ty)),
    applyRowsO k s rows = some rows' →
    rows'.map Prod.fst = rows.map Prod.fst := by
  intro k
  induction k with
  | zero => intro s rows rows' h; simp [applyRowsO] at h
  | succ k ih =>
    intro s rows rows' h
    cases rows with
    | nil =>
      rw [applyRowsO] at h
      cases h
      rfl
    | cons p rest =>
      rw [applyRowsO] at h
      cases hp : applyO k s p.2 with
      | none => rw [hp] at h; simp [Option.bind] at h
      | some t' =>
        rw [hp] at h
        cases hq : applyRowsO k s rest with
        | none => rw [hq] at h; simp [Option.bind] at h
        | some rest' =>
          rw [hq] at h
          simp [Option.bind] at h
          rw [← h]
          simp [ih s rest rest' hq]

/-- Apply preserves None-freedom when all solutions are None-free and
well-formed. -/
theorem applyO_noneFree : ∀ (k : Nat) (s : Subst), GoodS s →
    (∀ ty r, applyO k s ty = some r → noneFree ty = true → noneFree r = true)
    ∧ (∀ rows r, applyRowsO k s rows = some r → noneFreeRows rows = true →
        noneFreeRows r = true)
    ∧ (∀ l r, applyListO k s l = some r → noneFreeList l = true →
        noneFreeList r = true) := by
  intro k
  induction k with
  | zero =>
    intro s _
    refine ⟨?_, ?_, ?_⟩ <;>
      intro x r h <;> simp [applyO, applyRowsO, applyListO] at h
  | succ k ih =>
    intro s hG
    refine ⟨?_, ?_, ?_⟩
    · intro ty r h hn
      cases ty with
      | none => simp [noneFree] at hn
      | boundVar n => rw [applyO] at h; cases h; exact hn
      | fixedVar n => rw [applyO] at h; cases h; exact hn
      | metaVar mv =>
        rw [applyO] at h
        cases hg : Subst.get s mv with
        | none => rw [hg] at h; cases h; exact hn
        | some e =>
          cases e with
          | solved t =>
            rw [hg] at h
            have hs : s.getSolved mv = some t :=
              Subst.getSolved_eq_some.mpr hg
            exact (ih s hG).1 t r h (hG mv t hs).1
          | kind kk => rw [hg] at h; cases h; exact hn
      | record rows =>
        rw [applyO] at h
        cases hr : applyRowsO k s rows with
        | none => rw [hr] at h; simp at h
        | some rows' =>
          rw [hr] at h
          simp at h
          rw [← h]
          simp only [noneFree]
          exact (ih s hG).2.1 rows rows' hr (by simpa [noneFree] using hn)
      | con args sym =>
        rw [applyO] at h
        cases hr : applyListO k s args with
        | none => rw [hr] at h; simp at h
        | some args' =>
          rw [hr] at h
          simp at h
          rw [← h]
          simp only [noneFree]
          exact (ih s hG).2.2 args args' hr (by simpa [noneFree] using hn)
      | fn param res =>
        rw [applyO] at h
        cases hp : applyO k s param with
        | none => rw [hp] at h; simp [Option.bind] at h
        | some p' =>
          rw [hp] at h
          cases hq : applyO k s res with
          | none => rw [hq] at h; simp [Option.bind] at h
          | some r' =>
            rw [hq] at h
            simp [Option.bind] at h
            rw [← h]
            simp only [noneFree, Bool.and_eq_true] at hn ⊢
            exact ⟨(ih s hG).1 param p' hp hn.1, (ih s hG).1 res r' hq hn.2⟩
    · intro rows r h hn
      cases rows with
      | nil => rw [applyRowsO] at h; cases h; exact hn
      | cons p rest =>
        rw [applyRowsO] at h
        cases hp : applyO k s p.2 with
        | none => rw [hp] at h; simp [Option.bind] at h
        | some t' =>
          rw [hp] at h
          cases hq : applyRowsO k s rest with
          | none => rw [hq] at h; simp [Option.bind] at h
          | some rest' =>
            rw [hq] at h
            simp [Option.bind] at h
            rw [← h]
            simp only [noneFreeRows, Bool.and_eq_true] at hn ⊢
            exact ⟨(ih s hG).1 p.2 t' hp hn.1,
                   (ih s hG).2.1 rest rest' hq hn.2⟩
    · intro l r h hn
      cases l with
      | nil => rw [applyListO] at h; cases h; exact hn
      | cons t rest =>
        rw [applyListO] at h
        cases hp : applyO k s t with
        | none => rw [hp] at h; simp [Option.bind] at h
        | some t' =>
          rw [hp] at h
          cases hq : applyListO k s rest with
          | none => rw [hq] at h; simp [Option.bind] at h
          | some rest' =>
            rw [hq] at h
            simp [Option.bind] at h
            rw [← h]
            simp only [noneFreeList, Bool.and_eq_true] at hn ⊢
            exact ⟨(ih s hG).1 t t' hp hn.1,
                   (ih s hG).2.2 rest rest' hq hn.2⟩

/-- Apply preserves well-formedness when all solutions are None-free and
well-formed. -/
theorem applyO_wf : ∀ (k : Nat) (s : Subst), GoodS s →
    (∀ ty r, applyO k s ty = some r → wf ty = true → wf r = true)
    ∧ (∀ rows r, applyRowsO k s rows = some r → wfRows rows = true →
        wfRows r = true)
    ∧ (∀ l r, applyListO k s l = some r → wfList l = true →
        wfList r = true) := by
  intro k
  induction k with
  | zero =>
    intro s _
    refine ⟨?_, ?_, ?_⟩ <;>
      intro x r h <;> simp [applyO, applyRowsO, applyListO] at h
  | succ k ih =>
    intro s hG
    refine ⟨?_, ?_, ?_⟩
    · intro ty r h hn
      cases ty with
      | none => rw [applyO] at h; cases h; exact hn
      | boundVar n => rw [applyO] at h; cases h; exact hn
      | fixedVar n => rw [applyO] at h; cases h; exact hn
      | metaVar mv =>
        rw [applyO] at h
        cases hg : Subst.get s mv with
        | none => rw [hg] at h; cases h; exact hn
        | some e =>
          cases e with
          | solved t =>
            rw [hg] at h
            have hs : s.getSolved mv = some t :=
              Subst.getSolved_eq_some.mpr hg
            exact (ih s hG).1 t r h (hG mv t hs).2
          | kind kk => rw [hg] at h; cases h; exact hn
      | record rows =>
        rw [applyO] at h
        cases hr : applyRowsO k s rows with
        | none => rw [hr] at h; simp at h
        | some rows' =>
          rw [hr] at h
          simp at h
          rw [← h]
          simp only [wf, Bool.and_eq_true] at hn ⊢
          refine ⟨?_, (ih s hG).2.1 rows rows' hr hn.2⟩
          rw [sortedKeys_of_labels_eq rows' rows
            (applyRowsO_labels k s rows rows' hr)]
          exact hn.1
      | con args sym =>
        rw [applyO] at h
        cases hr : applyListO k s args with
        | none => rw [hr] at h; simp at h
        | some args' =>
          rw [hr] at h
          simp at h
          rw [← h]
          simp only [wf] at hn ⊢
          exact (ih s hG).2.2 args args' hr hn
      | fn param res =>
        rw [applyO] at h
        cases hp : applyO k s param with
        | none => rw [hp] at h; simp [Option.bind] at h
        | some p' =>
          rw [hp] at h
          cases hq : applyO k s res with
          | none => rw [hq] at h; simp [Option.bind] at h
          | some r' =>
            rw [hq] at h
            simp [Option.bind] at h
            rw [← h]
            simp only [wf, Bool.and_eq_true] at hn ⊢
            exact ⟨(ih s hG).1 param p' hp hn.1, (ih s hG).1 res r' hq hn.2⟩
    · intro rows r h hn
      cases rows with
      | nil => rw [applyRowsO] at h; cases h; exact hn
      | cons p rest =>
        rw [applyRowsO] at h
        cases hp : applyO k s p.2 with
        | none => rw [hp] at h; simp [Option.bind] at h
        | some t' =>
          rw [hp] at h
          cases hq : applyRowsO k s rest with
          | none => rw [hq] at h; simp [Option.bind] at h
          | some rest' =>
            rw [hq] at h
            simp [Option.bind] at h
            rw [← h]
            simp only [wfRows, Bool.and_eq_true] at hn ⊢
            exact ⟨(ih s hG).1 p.2 t' hp hn.1,
                   (ih s hG).2.1 rest rest' hq hn.2⟩
    · intro l r h hn
      cases l with
      | nil => rw [applyListO] at h; cases h; exact hn
      | cons t rest =>
        rw [applyListO] at h
        cases hp : applyO k s t with
        | none => rw [hp] at h; simp [Option.bind] at h
        | some t' =>
          rw [hp] at h
          cases hq : applyListO k s rest with
          | none => rw [hq] at h; simp [Option.bind] at h
          | some rest' =>
            rw [hq] at h
            simp [Option.bind] at h
            rw [← h]
            simp only [wfList, Bool.and_eq_true] at hn ⊢
            exact ⟨(ih s hG).1 t t' hp hn.1,
                   (ih s hG).2.2 rest rest' hq hn.2⟩

/-- Apply only reads solved entries: substitutions with the same solved
lookups apply identically. -/
theorem applyO_getSolved_congr : ∀ (k : Nat) (s s2 : Subst),
    (∀ mv, s.getSolved mv = s2.getSolved mv) →
    (∀ ty, applyO k s ty = applyO k s2 ty)
    ∧ (∀ rows, applyRowsO k s rows = applyRowsO k s2 rows)
    ∧ (∀ l, applyListO k s l = applyListO k s2 l) := by
  intro k
  induction k with
  | zero => intro s s2 _; exact ⟨fun _ => rfl, fun _ => rfl, fun _ => rfl⟩
  | succ k ih =>
    intro s s2 hEq
    refine ⟨?_, ?_, ?_⟩
    · intro ty
      cases ty with
      | none => rfl
      | boundVar n => rfl
      | fixedVar n => rfl
      | metaVar mv =>
        rw [applyO, applyO]
        have h := hEq mv
        unfold Subst.getSolved at h
        cases hg : Subst.get s mv with
        | none =>
          cases hg2 : Subst.get s2 mv with
          | none => rfl
          | some e2 =>
            cases e2 with
            | solved t2 => rw [hg, hg2] at h; simp at h
            | kind kk2 => rfl
        | some e =>
          cases e with
          | solved t =>
            cases hg2 : Subst.get s2 mv with
            | none => rw [hg, hg2] at h; simp at h
            | some e2 =>
              cases e2 with
              | solved t2 =>
                rw [hg, hg2] at h
                simp at h
                rw [h]
                exact (ih s s2 hEq).1 t2
              | kind kk2 => rw [hg, hg2] at h; simp at h
          | kind kk =>
            cases hg2 : Subst.get s2 mv with
            | none => rfl
            | some e2 =>
              cases e2 with
              | solved t2 => rw [hg, hg2] at h; simp at h
              | kind kk2 => rfl
      | record rows =>
        rw [applyO, applyO, (ih s s2 hEq).2.1 rows]
      | con args sym =>
        rw [applyO, applyO, (ih s s2 hEq).2.2 args]
      | fn param res =>
        rw [applyO, applyO, (ih s s2 hEq).1 param, (ih s s2 hEq).1 res]
    · intro rows
      cases rows with
      | nil => rfl
      | cons p rest =>
        rw [applyRowsO, applyRowsO, (ih s s2 hEq).1 p.2,
          (ih s s2 hEq).2.1 rest]
    · intro l
      cases l with
      | nil => rfl
      | cons t rest =>
        rw [applyListO, applyListO, (ih s s2 hEq).1 t,
          (ih s s2 hEq).2.2 rest]

/-- Composing apply across an extension: applying the extended
substitution to an apply result of the original gives the same as
applying the extended one directly. -/
theorem applyO_comp : ∀ (j : Nat) (s s2 : Subst), Ext s s2 →
    (∀ ty w r j2, applyO j s ty = some w → applyO j2 s2 w = some r →
      ∃ k, applyO k s2 ty = some r)
    ∧ (∀ rows w r j2, applyRowsO j s rows = some w →
        applyRowsO j2 s2 w = some r → ∃ k, applyRowsO k s2 rows = some r)
    ∧ (∀ l w r j2, applyListO j s l = some w →
        applyListO j2 s2 w = some r → ∃ k, applyListO k s2 l = some r) := by
  intro j
  induction j with
  | zero =>
    intro s s2 _
    refine ⟨?_, ?_, ?_⟩ <;>
      intro x w r j2 h <;> simp [applyO, applyRowsO, applyListO] at h
  | succ j ih =>
    intro s s2 hExt
    refine ⟨?_, ?_, ?_⟩
    · intro ty w r j2 h h2
      cases ty with
      | none =>
        rw [applyO] at h
        cases h
        exact ⟨j2, h2⟩
      | boundVar n =>
        rw [applyO] at h
        cases h
        exact ⟨j2, h2⟩
      | fixedVar n =>
        rw [applyO] at h
        cases h
        exact ⟨j2, h2⟩
      | metaVar mv =>
        rw [applyO] at h
        cases hg : Subst.get s mv with
        | none =>
          rw [hg] at h
          cases h
          exact ⟨j2, h2⟩
        | some e =>
          cases e with
          | solved t =>
            rw [hg] at h
            have hs2 : s2.getSolved mv = some t :=
              hExt mv t (Subst.getSolved_eq_some.mpr hg)
            obtain ⟨k, hk⟩ := (ih s s2 hExt).1 t w r j2 h h2
            refine ⟨k + 1, ?_⟩
            rw [applyO, Subst.getSolved_eq_some.mp hs2]
            exact hk
          | kind kk =>
            rw [hg] at h
            cases h
            exact ⟨j2, h2⟩
      | record rows =>
        rw [applyO] at h
        cases hr : applyRowsO j s rows with
        | none => rw [hr] at h; simp at h
        | some rows' =>
          rw [hr] at h
          simp at h
          rw [← h] at h2
          match j2, h2 with
          | j2 + 1, h2 =>
            rw [applyO] at h2
            cases hr2 : applyRowsO j2 s2 rows' with
            | none => rw [hr2] at h2; simp at h2
            | some rows2 =>
              rw [hr2] at h2
              simp at h2
              obtain ⟨k, hk⟩ := (ih s s2 hExt).2.1 rows rows' rows2 j2 hr hr2
              refine ⟨k + 1, ?_⟩
              rw [applyO, hk]
              simp [h2]
      | con args sym =>
        rw [applyO] at h
        cases hr : applyListO j s args with
        | none => rw [hr] at h; simp at h
        | some args' =>
          rw [hr] at h
          simp at h
          rw [← h] at h2
          match j2, h2 with
          | j2 + 1, h2 =>
            rw [applyO] at h2
            cases hr2 : applyListO j2 s2 args' with
            | none => rw [hr2] at h2; simp at h2
            | some args2 =>
              rw [hr2] at h2
              simp at h2
              obtain ⟨k, hk⟩ := (ih s s2 hExt).2.2 args args' args2 j2 hr hr2
              refine ⟨k + 1, ?_⟩
              rw [applyO, hk]
              simp [h2]
      | fn param res =>
        rw [applyO] at h
        cases hp : applyO j s param with
        | none => rw [hp] at h; simp [Option.bind] at h
        | some p' =>
          rw [hp] at h
          cases hq : applyO j s res with
          | none => rw [hq] at h; simp [Option.bind] at h
          | some r' =>
            rw [hq] at h
            simp [Option.bind] at h
            rw [← h] at h2
            match j2, h2 with
            | j2 + 1, h2 =>
              rw [applyO] at h2
              cases hp2 : applyO j2 s2 p' with
              | none => rw [hp2] at h2; simp [Option.bind] at h2
              | some p2 =>
                rw [hp2] at h2
                cases hq2 : applyO j2 s2 r' with
                | none => rw [hq2] at h2; simp [Option.bind] at h2
                | some r2 =>
                  rw [hq2] at h2
                  simp [Option.bind] at h2
                  obtain ⟨k1, hk1⟩ := (ih s s2 hExt).1 param p' p2 j2 hp hp2
                  obtain ⟨k2, hk2⟩ := (ih s s2 hExt).1 res r' r2 j2 hq hq2
                  refine ⟨max k1 k2 + 1, ?_⟩
                  rw [applyO,
                    applyO_mono_le (Nat.le_max_left k1 k2) hk1,
                    applyO_mono_le (Nat.le_max_right k1 k2) hk2]
                  simp [Option.bind, h2]
    · intro rows w r j2 h h2
      cases rows with
      | nil =>
        rw [applyRowsO] at h
        cases h
        exact ⟨j2, h2⟩
      | cons p rest =>
        rw [applyRowsO] at h
        cases hp : applyO j s p.2 with
        | none => rw [hp] at h; simp [Option.bind] at h
        | some t' =>
          rw [hp] at h
          cases hq : applyRowsO j s rest with
          | none => rw [hq] at h; simp [Option.bind] at h
          | some rest' =>
            rw [hq] at h
            simp [Option.bind] at h
            rw [← h] at h2
            match j2, h2 with
            | j2 + 1, h2 =>
              rw [applyRowsO] at h2
              cases hp2 : applyO j2 s2 t' with
              | none => rw [hp2] at h2; simp [Option.bind] at h2
              | some t2 =>
                rw [hp2] at h2
                cases hq2 : applyRowsO j2 s2 rest' with
                | none => rw [hq2] at h2; simp [Option.bind] at h2
                | some rest2 =>
                  rw [hq2] at h2
                  simp [Option.bind] at h2
                  obtain ⟨k1, hk1⟩ := (ih s s2 hExt).1 p.2 t' t2 j2 hp hp2
                  obtain ⟨k2, hk2⟩ :=
                    (ih s s2 hExt).2.1 rest rest' rest2 j2 hq hq2
                  refine ⟨max k1 k2 + 1, ?_⟩
                  rw [applyRowsO,
                    applyO_mono_le (Nat.le_max_left k1 k2) hk1,
                    applyRowsO_mono_le (Nat.le_max_right k1 k2) hk2]
                  simp [Option.bind, h2]
    · intro l w r j2 h h2
      cases l with
      | nil =>
        rw [applyListO] at h
        cases h
        exact ⟨j2, h2⟩
      | cons t rest =>
        rw [applyListO] at h
        cases hp : applyO j s t with
        | none => rw [hp] at h; simp [Option.bind] at h
        | some t' =>
          rw [hp] at h
          cases hq : applyListO j s rest with
          | none => rw [hq] at h; simp [Option.bind] at h
          | some rest' =>
            rw [hq] at h
            simp [Option.bind] at h
            rw [← h] at h2
            match j2, h2 with
            | j2 + 1, h2 =>
              rw [applyListO] at h2
              cases hp2 : applyO j2 s2 t' with
              | none => rw [hp2] at h2; simp [Option.bind] at h2
              | some t2 =>
                rw [hp2] at h2
                cases hq2 : applyListO j2 s2 rest' with
                | none => rw [hq2] at h2; simp [Option.bind] at h2
                | some rest2 =>
                  rw [hq2] at h2
                  simp [Option.bind] at h2
                  obtain ⟨k1, hk1⟩ := (ih s s2 hExt).1 t t' t2 j2 hp hp2
                  obtain ⟨k2, hk2⟩ :=
                    (ih s s2 hExt).2.2 rest rest' rest2 j2 hq hq2
                  refine ⟨max k1 k2 + 1, ?_⟩
                  rw [applyListO,
                    applyO_mono_le (Nat.le_max_left k1 k2) hk1,
                    applyListO_mono_le (Nat.le_max_right k1 k2) hk2]
                  simp [Option.bind, h2]

/-- Build a rows application from element-wise applications. -/
theorem applyRowsO_of_forall2 (s : Subst) :
    ∀ (rows rows' : List (Lab × Ty)),
      List.Forall₂ (fun p q => p.1 = q.1 ∧ ∃ k, applyO k s p.2 = some q.2)
        rows rows' →
      ∃ k, applyRowsO k s rows = some rows' := by
  intro rows rows' h
  induction h with
  | nil => exact ⟨1, rfl⟩
  | @cons p q rows rows' hpq _ ih =>
    obtain ⟨k1, hk1⟩ := hpq.2
    obtain ⟨k2, hk2⟩ := ih
    refine ⟨max k1 k2 + 1, ?_⟩
    rw [applyRowsO, applyO_mono_le (Nat.le_max_left k1 k2) hk1,
      applyRowsO_mono_le (Nat.le_max_right k1 k2) hk2]
    simp [Option.bind]
    cases p
    cases q
    simp at hpq
    simp [hpq]

/-- Split a rows application into element-wise applications. -/
theorem applyRowsO_forall2 : ∀ (k : Nat) (s : Subst)
    (rows rows' : List (Lab × Ty)),
    applyRowsO k s rows = some rows' →
    List.Forall₂ (fun p q => p.1 = q.1 ∧ ∃ j, applyO j s p.2 = some q.2)
      rows rows' := by
  intro k
  induction k with
  | zero => intro s rows rows' h; simp [applyRowsO] at h
  | succ k ih =>
    intro s rows rows' h
    cases rows with
    | nil =>
      rw [applyRowsO] at h
      cases h
      exact List.Forall₂.nil
    | cons p rest =>
      rw [applyRowsO] at h
      cases hp : applyO k s p.2 with
      | none => rw [hp] at h; simp [Option.bind] at h
      | some t' =>
        rw [hp] at h
        cases hq : applyRowsO k s rest with
        | none => rw [hq] at h; simp [Option.bind] at h
        | some rest' =>
          rw [hq] at h
          simp [Option.bind] at h
          rw [← h]
          exact List.Forall₂.cons ⟨rfl, ⟨k, hp⟩⟩ (ih s rest rest' hq)

/-- Build a list application from element-wise applications. -/
theorem applyListO_of_forall2 (s : Subst) :
    ∀ (l l' : List Ty),
      List.Forall₂ (fun p q => ∃ k, applyO k s p = some q) l l' →
      ∃ k, applyListO k s l = some l' := by
  intro l l' h
  induction h with
  | nil => exact ⟨1, rfl⟩
  | @cons p q l l' hpq _ ih =>
    obtain ⟨k1, hk1⟩ := hpq
    obtain ⟨k2, hk2⟩ := ih
    refine ⟨max k1 k2 + 1, ?_⟩
    rw [applyListO, applyO_mono_le (Nat.le_max_left k1 k2) hk1,
      applyListO_mono_le (Nat.le_max_right k1 k2) hk2]
    rfl

/-- Split a list application into element-wise applications. -/
theorem applyListO_forall2 : ∀ (k : Nat) (s : Subst) (l l' : List Ty),
    applyListO k s l = some l' →
    List.Forall₂ (fun p q => ∃ j, applyO j s p = some q) l l' := by
  intro k
  induction k with
  | zero => intro s l l' h; simp [applyListO] at h
  | succ k ih =>
    intro s l l' h
    cases l with
    | nil =>
      rw [applyListO] at h
      cases h
      exact List.Forall₂.nil
    | cons t rest =>
      rw [applyListO] at h
      cases hp : applyO k s t with
      | none => rw [hp] at h; simp [Option.bind] at h
      | some t' =>
        rw [hp] at h
        cases hq : applyListO k s rest with
        | none => rw [hq] at h; simp [Option.bind] at h
        | some rest' =>
          rw [hq] at h
          simp [Option.bind] at h
          rw [← h]
          exact List.Forall₂.cons ⟨k, hp⟩ (ih s rest rest' hq)

/-- Records and their rows are equally normal. -/
theorem SNormal_record {s : Subst} {rows : List (Lab × Ty)} :
    SNormal s (.record rows) ↔ SNormalRows s rows := by
  simp [SNormal, SNormalRows, mvars]

/-- Constructor types and their arguments are equally normal. -/
theorem SNormal_con {s : Subst} {args : List Ty} {sym : Nat} :
    SNormal s (.con args sym) ↔ SNormalList s args := by
  simp [SNormal, SNormalList, mvars]

/-- Normality of a row member value. -/
theorem SNormalRows_elem {s : Subst} {rows : List (Lab × Ty)}
    (h : SNormalRows s rows) {p : Lab × Ty} (hp : p ∈ rows) :
    SNormal s p.2 :=
  fun mv hmv => h mv (mvarsRows_mem rows p hp mv hmv)

/-- Normality of a list member. -/
theorem SNormalList_elem {s : Subst} {l : List Ty}
    (h : SNormalList s l) {t : Ty} (ht : t ∈ l) : SNormal s t :=
  fun mv hmv => h mv (mvarsList_mem l t ht mv hmv)

/-- Element-wise one-step substitution on rows, packaged. -/
theorem forall2_subst1Rows (s2 : Subst) (mv : Nat) (t0 : Ty) :
    ∀ rows : List (Lab × Ty),
      (∀ p ∈ rows, ∃ k, applyO k s2 p.2 = some (subst1 mv t0 p.2)) →
      List.Forall₂ (fun p q => p.1 = q.1 ∧ ∃ k, applyO k s2 p.2 = some q.2)
        rows (subst1Rows mv t0 rows) := by
  intro rows h
  induction rows with
  | nil => exact List.Forall₂.nil
  | cons p rest ih =>
    rw [subst1Rows]
    exact List.Forall₂.cons ⟨rfl, h p (by simp)⟩
      (ih (fun q hq => h q (by simp [hq])))

/-- Element-wise one-step substitution on lists, packaged. -/
theorem forall2_subst1List (s2 : Subst) (mv : Nat) (t0 : Ty) :
    ∀ l : List Ty,
      (∀ t ∈ l, ∃ k, applyO k s2 t = some (subst1 mv t0 t)) →
      List.Forall₂ (fun p q => ∃ k, applyO k s2 p = some q)
        l (subst1List mv t0 l) := by
  intro l h
  induction l with
  | nil => exact List.Forall₂.nil
  | cons t rest ih =>
    rw [subst1List]
    exact List.Forall₂.cons (h t (by simp))
      (ih (fun q hq => h q (by simp [hq])))

/-- Applying a substitution extended at one fresh meta variable to a
normal type substitutes exactly that variable. -/
theorem applyO_subst1 (s s2 : Subst) (mv : Nat) (t0 : Ty)
    (hm : s2.getSolved mv = some t0)
    (ho : ∀ x, x ≠ mv → s2.getSolved x = s.getSolved x)
    (ht0 : SNormal s t0)
    (hocc : occurs mv t0 = false) :
    ∀ w, SNormal s w → ∃ k, applyO k s2 w = some (subst1 mv t0 w) := by
  have ht0n : SNormal s2 t0 := by
    intro x hx
    have hxne : x ≠ mv := by
      intro he
      exact not_mem_of_occurs_false hocc (he ▸ hx)
    rw [ho x hxne]
    exact ht0 x hx
  intro w
  induction w using Ty.inductionOn with
  | hnone => exact fun _ => ⟨1, rfl⟩
  | hbv n => exact fun _ => ⟨1, rfl⟩
  | hfv n => exact fun _ => ⟨1, rfl⟩
  | hmv n =>
    intro hw
    by_cases hn : n = mv
    · rw [hn]
      obtain ⟨k, hk⟩ := applyO_of_normal s2 t0 ht0n
      refine ⟨k + 1, ?_⟩
      rw [applyO, Subst.getSolved_eq_some.mp hm]
      show applyO k s2 t0 = some (subst1 mv t0 (Ty.metaVar mv))
      rw [hk]
      simp [subst1]
    · refine ⟨1, ?_⟩
      have : s2.getSolved n = Option.none := by
        rw [ho n hn]
        exact hw n (by simp [mvars])
      rw [applyO]
      unfold Subst.getSolved at this
      cases hg : Subst.get s2 n with
      | none => simp [subst1, hn]
      | some e =>
        cases e with
        | solved t => rw [hg] at this; simp at this
        | kind kk => simp [subst1, hn]
  | hrec rows ih =>
    intro hw
    have hw2 := SNormal_record.mp hw
    obtain ⟨k, hk⟩ := applyRowsO_of_forall2 s2 rows (subst1Rows mv t0 rows)
      (forall2_subst1Rows s2 mv t0 rows
        (fun p hp => ih p hp (SNormalRows_elem hw2 hp)))
    refine ⟨k + 1, ?_⟩
    rw [applyO, hk]
    simp [subst1]
  | hcon args sym ih =>
    intro hw
    have hw2 := SNormal_con.mp hw
    obtain ⟨k, hk⟩ := applyListO_of_forall2 s2 args (subst1List mv t0 args)
      (forall2_subst1List s2 mv t0 args
        (fun t ht => ih t ht (SNormalList_elem hw2 ht)))
    refine ⟨k + 1, ?_⟩
    rw [applyO, hk]
    simp [subst1]
  | hfn p r ihp ihr =>
    intro hw
    obtain ⟨k1, hk1⟩ := ihp (fun x hx => hw x (by simp [mvars, hx]))
    obtain ⟨k2, hk2⟩ := ihr (fun x hx => hw x (by simp [mvars, hx]))
    refine ⟨max k1 k2 + 1, ?_⟩
    rw [applyO, applyO_mono_le (Nat.le_max_left k1 k2) hk1,
      applyO_mono_le (Nat.le_max_right k1 k2) hk2]
    simp [subst1, Option.bind]

/-- Extensions compose. -/
theorem Ext_trans {s1 s2 s3 : Subst} (h1 : Ext s1 s2) (h2 : Ext s2 s3) :
    Ext s1 s3 :=
  fun mv t h => h2 mv t (h1 mv t h)

/-- Every substitution extends itself. -/
theorem Ext_refl (s : Subst) : Ext s s := fun _ _ h => h

/-- Inserting a solution for an unsolved variable is an extension, and
the solved lookups change only at that variable. -/
theorem getSolved_insert_solved (s : Subst) (mv : Nat) (t : Ty) :
    (((s.insert mv (.solved t)).2).getSolved mv = some t)
    ∧ ∀ x, x ≠ mv →
        ((s.insert mv (.solved t)).2).getSolved x = s.getSolved x := by
  constructor
  · rw [Subst.getSolved_insert]
    simp
  · intro x hx
    rw [Subst.getSolved_insert]
    simp [hx]

/-- Inserting a kind entry never changes any solved lookup when the
variable was unsolved. -/
theorem getSolved_insert_kind (s : Subst) (mv : Nat) (kk : TyVarKind)
    (hu : s.getSolved mv = Option.none) :
    ∀ x, ((s.insert mv (.kind kk)).2).getSolved x = s.getSolved x := by
  intro x
  rw [Subst.getSolved_insert]
  by_cases hx : x = mv
  · simp [hx, hu]
  · simp [hx]

/-- GoodS only reads solved lookups. -/
theorem GoodS_congr {s s2 : Subst}
    (hEq : ∀ mv, s.getSolved mv = s2.getSolved mv) (hG : GoodS s) :
    GoodS s2 := by
  intro mv t h
  exact hG mv t ((hEq mv).symm ▸ h)

/-- Inserting a None-free well-formed solution preserves GoodS. -/
theorem GoodS_insert_solved {s : Subst} (hG : GoodS s) (mv : Nat) {t : Ty}
    (hn : noneFree t = true) (hw : wf t = true) :
    GoodS ((s.insert mv (.solved t)).2) := by
  intro x u h
  rw [Subst.getSolved_insert] at h
  by_cases hx : x = mv
  · rw [if_pos hx] at h
    simp at h
    rw [← h]
    exact ⟨hn, hw⟩
  · rw [if_neg hx] at h
    exact hG x u h

/-- Apply respects equal solved lookups, in relation form. -/
theorem Apply_congr {s s2 : Subst}
    (hEq : ∀ mv, s.getSolved mv = s2.getSolved mv) {ty r : Ty}
    (h : Apply s ty r) : Apply s2 ty r := by
  obtain ⟨k, hk⟩ := h
  exact ⟨k, ((applyO_getSolved_congr k s s2 hEq).1 ty).symm ▸ hk⟩

/-- SNormal respects equal solved lookups. -/
theorem SNormal_congr {s s2 : Subst}
    (hEq : ∀ mv, s.getSolved mv = s2.getSolved mv) {ty : Ty}
    (h : SNormal s ty) : SNormal s2 ty :=
  fun mv hmv => (hEq mv).symm ▸ h mv hmv

/-- Apply at a solved meta variable resolves through the solution. -/
theorem Apply_mv_solved {s : Subst} {mv : Nat} {t r : Ty}
    (hm : s.getSolved mv = some t) (h : Apply s t r) :
    Apply s (.metaVar mv) r := by
  obtain ⟨k, hk⟩ := h
  refine ⟨k + 1, ?_⟩
  rw [applyO, Subst.getSolved_eq_some.mp hm]
  exact hk

/-- Apply through a function node. -/
theorem Apply_fn {s : Subst} {p r p' r' : Ty}
    (hp : Apply s p p') (hr : Apply s r r') :
    Apply s (.fn p r) (.fn p' r') := by
  obtain ⟨k1, h1⟩ := hp
  obtain ⟨k2, h2⟩ := hr
  refine ⟨max k1 k2 + 1, ?_⟩
  rw [applyO, applyO_mono_le (Nat.le_max_left k1 k2) h1,
    applyO_mono_le (Nat.le_max_right k1 k2) h2]
  rfl

/-- Apply through a record node. -/
theorem Apply_record {s : Subst} {rows rrows : List (Lab × Ty)}
    (h : ∃ k, applyRowsO k s rows = some rrows) :
    Apply s (.record rows) (.record rrows) := by
  obtain ⟨k, hk⟩ := h
  exact ⟨k + 1, by rw [applyO, hk]; rfl⟩

/-- Apply through a constructor node. -/
theorem Apply_con {s : Subst} {args args' : List Ty} {sym : Nat}
    (h : ∃ k, applyListO k s args = some args') :
    Apply s (.con args sym) (.con args' sym) := by
  obtain ⟨k, hk⟩ := h
  exact ⟨k + 1, by rw [applyO, hk]; rfl⟩

/-- TotPres is reflexive. -/
theorem TotPres_refl (s : Subst) : TotPres s s := fun _ w h => ⟨w, h⟩

/-- TotPres composes. -/
theorem TotPres_trans {s1 s2 s3 : Subst} (h12 : TotPres s1 s2)
    (h23 : TotPres s2 s3) : TotPres s1 s3 := by
  intro ty w h
  obtain ⟨w2, hw2⟩ := h12 ty w h
  exact h23 ty w2 hw2

/-- A normal type applies to itself. -/
theorem Apply_of_SNormal {s : Subst} {ty : Ty} (h : SNormal s ty) :
    Apply s ty ty :=
  applyO_of_normal s ty h

/-- Apply results are normal, in relation form. -/
theorem Apply_SNormal_result {s : Subst} {ty w : Ty} (h : Apply s ty w) :
    SNormal s w := by
  obtain ⟨k, hk⟩ := h
  exact (applyO_normal k s).1 ty w hk

/-- An unsolved meta variable applies to itself. -/
theorem Apply_mv_unsolved {s : Subst} {mv : Nat}
    (h : s.getSolved mv = Option.none) :
    Apply s (.metaVar mv) (.metaVar mv) := by
  refine ⟨1, ?_⟩
  rw [applyO]
  unfold Subst.getSolved at h
  cases hg : Subst.get s mv with
  | none => rfl
  | some e =>
    cases e with
    | solved t => rw [hg] at h; simp at h
    | kind kk => rfl

/-- The package of facts produced by solving one unsolved meta variable
to a normal, None-free, well-formed type that it does not occur in. -/
theorem insert_solved_package (s : Subst) (mv : Nat) (ty : Ty)
    (hG : GoodS s) (hu : s.getSolved mv = Option.none)
    (hty : SNormal s ty) (hn : noneFree ty = true) (hw : wf ty = true)
    (hocc : occurs mv ty = false) :
    GoodS ((s.insert mv (.solved ty)).2)
    ∧ Ext s ((s.insert mv (.solved ty)).2)
    ∧ TotPres s ((s.insert mv (.solved ty)).2)
    ∧ SNormal ((s.insert mv (.solved ty)).2) ty
    ∧ Apply ((s.insert mv (.solved ty)).2) (.metaVar mv) ty
    ∧ Apply ((s.insert mv (.solved ty)).2) ty ty := by
  have hm := (getSolved_insert_solved s mv ty).1
  have ho := (getSolved_insert_solved s mv ty).2
  have hsn : SNormal ((s.insert mv (.solved ty)).2) ty := by
    intro x hx
    have hxne : x ≠ mv := by
      intro he
      exact not_mem_of_occurs_false hocc (he ▸ hx)
    rw [ho x hxne]
    exact hty x hx
  have happ : Apply ((s.insert mv (.solved ty)).2) ty ty :=
    Apply_of_SNormal hsn
  refine ⟨GoodS_insert_solved hG mv hn hw, ?_, ?_, hsn,
    Apply_mv_solved hm happ, happ⟩
  · intro x t hx
    have hxne : x ≠ mv := by
      intro he
      rw [he, hu] at hx
      cases hx
    rw [ho x hxne]
    exact hx
  · intro ty0 w h0
    have hwn : SNormal s w := Apply_SNormal_result h0
    obtain ⟨kw, hkw⟩ :=
      applyO_subst1 s ((s.insert mv (.solved ty)).2) mv ty hm ho hty hocc w hwn
    have hExt : Ext s ((s.insert mv (.solved ty)).2) := by
      intro x t hx
      have hxne : x ≠ mv := by
        intro he
        rw [he, hu] at hx
        cases hx
      rw [ho x hxne]
      exact hx
    obtain ⟨j1, hj1⟩ := h0
    obtain ⟨k, hk⟩ := (applyO_comp j1 s _ hExt).1 ty0 w (subst1 mv ty w) kw hj1 hkw
    exact ⟨subst1 mv ty w, ⟨k, hk⟩⟩

/-- Soundness package of the MetaVar case of unify_ (unifyMv): on
success, the substitution is extended compatibly, applicability is
preserved, and the meta variable and the type have a common normal
application result. -/
theorem unifyMv_sound (s : Subst) (mv : Nat) (ty : Ty) (s' : Subst)
    (hG : GoodS s)
    (hu : s.getSolved mv = Option.none)
    (hty : SNormal s ty)
    (hn : noneFree ty = true) (hw : wf ty = true)
    (hok : unifyMv s mv ty = .ok s') :
    GoodS s' ∧ Ext s s' ∧ TotPres s s'
    ∧ ∃ r, Apply s' (.metaVar mv) r ∧ Apply s' ty r ∧ SNormal s' r := by
  unfold unifyMv at hok
  by_cases hsame : sameMv mv ty = true
  · rw [if_pos hsame] at hok
    cases hok
    have hty_eq : ty = .metaVar mv := by
      cases ty <;> simp [sameMv] at hsame
      rw [hsame]
    refine ⟨hG, Ext_refl s, TotPres_refl s, ⟨.metaVar mv, ?_, ?_, ?_⟩⟩
    · exact Apply_mv_unsolved hu
    · rw [hty_eq]
      exact Apply_mv_unsolved hu
    · intro x hx
      simp [mvars] at hx
      rw [hx]
      exact hu
  · rw [if_neg hsame] at hok
    by_cases hocc : occurs mv ty = true
    · rw [if_pos hocc] at hok
      cases hok
    · rw [if_neg hocc] at hok
      have hocc' : occurs mv ty = false := by
        cases h2 : occurs mv ty
        · rfl
        · exact absurd h2 hocc
      have pack := insert_solved_package s mv ty hG hu hty hn hw hocc'
      simp only [Subst.insert_fst] at hok
      cases hg : Subst.get s mv with
      | none =>
        rw [hg] at hok
        simp at hok
        rw [← hok]
        exact ⟨pack.1, pack.2.1, pack.2.2.1,
          ⟨ty, pack.2.2.2.2.1, pack.2.2.2.2.2, pack.2.2.2.1⟩⟩
      | some e =>
        rw [hg] at hok
        cases e with
        | solved t =>
          exfalso
          have : s.getSolved mv = some t := Subst.getSolved_eq_some.mpr hg
          rw [hu] at this
          cases this
        | kind kk =>
          cases kk with
          | equality =>
            simp at hok
            rw [← hok]
            exact ⟨pack.1, pack.2.1, pack.2.2.1,
              ⟨ty, pack.2.2.2.2.1, pack.2.2.2.2.2, pack.2.2.2.1⟩⟩
          | overloaded ov =>
            cases ty with
            | none => simp [noneFree] at hn
            | boundVar n => simp at hok
            | fixedVar n => simp at hok
            | record rows => simp at hok
            | fn p r => simp at hok
            | con args sym =>
              by_cases hsym : sym ∈ ov.to_syms
              · by_cases hemp : args.isEmpty
                · simp only [hsym, hemp, if_true] at hok
                  simp at hok
                  rw [← hok]
                  exact ⟨pack.1, pack.2.1, pack.2.2.1,
                    ⟨_, pack.2.2.2.2.1, pack.2.2.2.2.2, pack.2.2.2.1⟩⟩
                · simp [hsym, hemp] at hok
              · simp [hsym] at hok
            | metaVar mv2 =>
              have hne2 : mv ≠ mv2 := by
                intro he
                rw [he] at hsame
                simp [sameMv] at hsame
              have hu2 : s.getSolved mv2 = Option.none :=
                hty mv2 (by simp [mvars])
              have hu2' : ((s.insert mv (.solved (.metaVar mv2))).2).getSolved
                  mv2 = Option.none := by
                rw [(getSolved_insert_solved s mv _).2 mv2
                  (fun he => hne2 he.symm)]
                exact hu2
              have hEq := getSolved_insert_kind
                ((s.insert mv (.solved (.metaVar mv2))).2) mv2
                (.overloaded ov) hu2'
              have transport :
                  GoodS (((s.insert mv (.solved (.metaVar mv2))).2.insert
                    mv2 (.kind (.overloaded ov))).2)
                  ∧ Ext s (((s.insert mv (.solved (.metaVar mv2))).2.insert
                    mv2 (.kind (.overloaded ov))).2)
                  ∧ TotPres s (((s.insert mv
                    (.solved (.metaVar mv2))).2.insert
                    mv2 (.kind (.overloaded ov))).2)
                  ∧ ∃ r, Apply (((s.insert mv
                      (.solved (.metaVar mv2))).2.insert
                      mv2 (.kind (.overloaded ov))).2) (.metaVar mv) r
                    ∧ Apply (((s.insert mv (.solved (.metaVar mv2))).2.insert
                      mv2 (.kind (.overloaded ov))).2) (.metaVar mv2) r
                    ∧ SNormal (((s.insert mv
                      (.solved (.metaVar mv2))).2.insert
                      mv2 (.kind (.overloaded ov))).2) r := by
                have hEq' : ∀ x, ((s.insert mv (.solved (.metaVar mv2))).2).getSolved x =
                    (((s.insert mv (.solved (.metaVar mv2))).2.insert mv2
                      (.kind (.overloaded ov))).2).getSolved x :=
                  fun x => (hEq x).symm
                refine ⟨GoodS_congr hEq' pack.1, ?_, ?_, ?_⟩
                · intro x t hx
                  rw [← hEq' x]
                  exact pack.2.1 x t hx
                · intro ty0 w h0
                  obtain ⟨w2, hw2⟩ := pack.2.2.1 ty0 w h0
                  exact ⟨w2, Apply_congr hEq' hw2⟩
                · exact ⟨.metaVar mv2,
                    Apply_congr hEq' pack.2.2.2.2.1,
                    Apply_congr hEq' pack.2.2.2.2.2,
                    SNormal_congr hEq' pack.2.2.2.1⟩
              simp only [] at hok
              cases hg2 : ((s.insert mv (.solved (.metaVar mv2))).2).get mv2 with
              | none =>
                rw [hg2] at hok
                simp at hok
                rw [← hok]
                exact transport
              | some e2 =>
                rw [hg2] at hok
                cases e2 with
                | solved t2 => simp at hok
                | kind kk2 =>
                  cases kk2 with
                  | equality =>
                    simp at hok
                    rw [← hok]
                    exact transport
                  | overloaded ov2 =>
                    simp only [] at hok
                    by_cases hsub : (ov2.to_syms.all
                        (fun x => x ∈ ov.to_syms)) = true
                    · rw [if_pos hsub] at hok
                      simp at hok
                      rw [← hok]
                      exact transport
                    · rw [if_neg hsub] at hok
                      simp at hok

/-- Common application results survive into an extension. -/
theorem common_head {s1 s2 : Subst} {wt gt r1 : Ty}
    (hExt : Ext s1 s2) (hTot : TotPres s1 s2)
    (hw : Apply s1 wt r1) (hg : Apply s1 gt r1) (hn : SNormal s1 r1) :
    ∃ X, Apply s2 wt X ∧ Apply s2 gt X ∧ SNormal s2 X := by
  obtain ⟨X, hX⟩ := hTot r1 r1 (Apply_of_SNormal hn)
  obtain ⟨j1, hj1⟩ := hw
  obtain ⟨j2, hj2⟩ := hX
  obtain ⟨ka, hka⟩ := (applyO_comp j1 s1 s2 hExt).1 wt r1 X j2 hj1 hj2
  obtain ⟨j3, hj3⟩ := hg
  obtain ⟨kb, hkb⟩ := (applyO_comp j3 s1 s2 hExt).1 gt r1 X j2 hj3 hj2
  exact ⟨X, ⟨ka, hka⟩, ⟨kb, hkb⟩, Apply_SNormal_result ⟨j2, hj2⟩⟩

/-- Rows application through a cons cell. -/
theorem applyRowsO_cons {s : Subst} {lab : Lab} {wt X : Ty}
    {rest rrest : List (Lab × Ty)}
    (h1 : Apply s wt X) (h2 : ∃ k, applyRowsO k s rest = some rrest) :
    ∃ k, applyRowsO k s ((lab, wt) :: rest) = some ((lab, X) :: rrest) := by
  obtain ⟨k1, h1⟩ := h1
  obtain ⟨k2, h2⟩ := h2
  refine ⟨max k1 k2 + 1, ?_⟩
  rw [applyRowsO]
  rw [applyO_mono_le (Nat.le_max_left k1 k2) h1,
    applyRowsO_mono_le (Nat.le_max_right k1 k2) h2]
  rfl

/-- List application through a cons cell. -/
theorem applyListO_cons {s : Subst} {wt X : Ty} {rest rrest : List Ty}
    (h1 : Apply s wt X) (h2 : ∃ k, applyListO k s rest = some rrest) :
    ∃ k, applyListO k s (wt :: rest) = some (X :: rrest) := by
  obtain ⟨k1, h1⟩ := h1
  obtain ⟨k2, h2⟩ := h2
  refine ⟨max k1 k2 + 1, ?_⟩
  rw [applyListO]
  rw [applyO_mono_le (Nat.le_max_left k1 k2) h1,
    applyListO_mono_le (Nat.le_max_right k1 k2) h2]
  rfl

/-- Structure of a successful BTreeMap removal. -/
theorem removeKey_split : ∀ (rows : List (Lab × Ty)) (lab : Lab)
    (t : Ty) (rest : List (Lab × Ty)),
    removeKey rows lab = some (t, rest) →
    ∃ pre post, rows = pre ++ (lab, t) :: post ∧ rest = pre ++ post := by
  intro rows
  induction rows with
  | nil => intro lab t rest h; simp [removeKey] at h
  | cons p rows ih =>
    intro lab t rest h
    rw [removeKey] at h
    by_cases hp : p.1 = lab
    · rw [if_pos hp] at h
      simp at h
      refine ⟨[], rows, ?_, by simp [h.2]⟩
      simp [← h.1, ← hp]
    · rw [if_neg hp] at h
      cases hr : removeKey rows lab with
      | none => rw [hr] at h; simp at h
      | some q =>
        rw [hr] at h
        simp at h
        obtain ⟨pre, post, hq1, hq2⟩ := ih lab q.1 q.2 hr
        refine ⟨p :: pre, post, ?_, ?_⟩
        · simp [hq1, h.1]
        · rw [← h.2, hq2]
          simp

/-- Forall₂ through an append. -/
theorem forall2_append {α β : Type} {R : α → β → Prop}
    {l1 l2 : List α} {m1 m2 : List β}
    (h1 : List.Forall₂ R l1 m1) (h2 : List.Forall₂ R l2 m2) :
    List.Forall₂ R (l1 ++ l2) (m1 ++ m2) := by
  induction h1 with
  | nil => exact h2
  | cons hpq _ ih => exact List.Forall₂.cons hpq ih

/-- Splitting Forall₂ at an append on the left. -/
theorem forall2_append_split {α β : Type} {R : α → β → Prop} :
    ∀ {l1 l2 : List α} {m : List β},
    List.Forall₂ R (l1 ++ l2) m →
    ∃ m1 m2, m = m1 ++ m2 ∧ List.Forall₂ R l1 m1 ∧ List.Forall₂ R l2 m2 := by
  intro l1
  induction l1 with
  | nil =>
    intro l2 m h
    exact ⟨[], m, rfl, List.Forall₂.nil, by simpa using h⟩
  | cons x l1 ih =>
    intro l2 m h
    cases h with
    | cons hxy h =>
      obtain ⟨m1, m2, rfl, hm1, hm2⟩ := ih h
      exact ⟨_ :: m1, m2, rfl, List.Forall₂.cons hxy hm1, hm2⟩

/-- Sorted keys as an adjacent chain. -/
theorem sortedKeys_chain : ∀ rows : List (Lab × Ty),
    sortedKeys rows = true ↔ List.Chain' (fun p q : Lab × Ty => p.1 < q.1) rows
  | [] => by simp [sortedKeys]
  | [p] => by simp [sortedKeys]
  | p :: q :: rest => by
    rw [sortedKeys]
    simp only [Bool.and_eq_true, decide_eq_true_eq, List.chain'_cons]
    rw [sortedKeys_chain (q :: rest)]

/-- Strictly-key-sorted permutations are equal. -/
theorem eq_of_perm_sortedKeys {l1 l2 : List (Lab × Ty)}
    (h1 : sortedKeys l1 = true) (h2 : sortedKeys l2 = true)
    (hp : l1.Perm l2) : l1 = l2 := by
  haveI : IsTrans (Lab × Ty) (fun p q => p.1 < q.1) :=
    ⟨fun a b c hab hbc => lt_trans hab hbc⟩
  refine @List.eq_of_perm_of_sorted (Lab × Ty) (fun p q => p.1 < q.1)
    ⟨fun a b hab hba => absurd (lt_trans hab hba) (lt_irrefl _)⟩ l1 l2 hp ?_ ?_
  · rw [List.Sorted, ← List.chain'_iff_pairwise]
    exact (sortedKeys_chain l1).mp h1
  · rw [List.Sorted, ← List.chain'_iff_pairwise]
    exact (sortedKeys_chain l2).mp h2

/-- An error outcome is never an ok outcome. -/
theorem except_error_ne_ok {E A : Type} {e : E} {x : A}
    (h : (Except.error e : Except E A) = .ok x) : False :=
  Except.noConfusion h

/-- Ok outcomes are injective. -/
theorem except_ok_inj {E A : Type} {x y : A}
    (h : (Except.ok x : Except E A) = .ok y) : x = y := by
  injection h

/-- Function types and their components are equally normal. -/
theorem SNormal_fn {s : Subst} {p r : Ty} :
    SNormal s (.fn p r) ↔ SNormal s p ∧ SNormal s r := by
  simp only [SNormal, mvars, List.mem_append]
  constructor
  · intro h
    exact ⟨fun mv hm => h mv (Or.inl hm), fun mv hm => h mv (Or.inr hm)⟩
  · rintro ⟨h1, h2⟩ mv (hm | hm)
    · exact h1 mv hm
    · exact h2 mv hm

/-- Lifting a common result of the applied forms back to the original
pair through composition of applications. -/
theorem lift_common {s s2 : Subst} {a w b g : Ty}
    (hExt : Ext s s2)
    (ha : Apply s a w) (hb : Apply s b g)
    (h : ∃ r, Apply s2 w r ∧ Apply s2 g r ∧ SNormal s2 r) :
    ∃ r, Apply s2 a r ∧ Apply s2 b r ∧ SNormal s2 r := by
  obtain ⟨r, hw, hg, hn⟩ := h
  obtain ⟨j1, hj1⟩ := ha
  obtain ⟨j2, hj2⟩ := hw
  obtain ⟨ka, hka⟩ := (applyO_comp j1 s s2 hExt).1 a w r j2 hj1 hj2
  obtain ⟨j3, hj3⟩ := hb
  obtain ⟨j4, hj4⟩ := hg
  obtain ⟨kb, hkb⟩ := (applyO_comp j3 s s2 hExt).1 b g r j4 hj3 hj4
  exact ⟨r, ⟨ka, hka⟩, ⟨kb, hkb⟩, hn⟩

/-- Soundness of the unifier by induction on fuel, simultaneously for
unifyF, unifyRowsF and unifyListF: from a good substitution and None-free,
well-formed inputs, a successful unification yields a good extension of
the substitution under which both inputs apply; the two applied results
agree (for rows up to permutation, resolved by key-sortedness at the
record node). -/
theorem unify_sound_main : ∀ K : Nat,
    (∀ s a b s2, GoodS s → noneFree a = true → wf a = true →
      noneFree b = true → wf b = true →
      unifyF K s a b = Except.ok s2 →
      GoodS s2 ∧ Ext s s2 ∧ TotPres s s2
      ∧ ∃ r, Apply s2 a r ∧ Apply s2 b r ∧ SNormal s2 r)
    ∧ (∀ s wrows grows s2, GoodS s →
      (∀ p ∈ wrows, noneFree p.2 = true ∧ wf p.2 = true) →
      (∀ p ∈ grows, noneFree p.2 = true ∧ wf p.2 = true) →
      unifyRowsF K s wrows grows = Except.ok s2 →
      GoodS s2 ∧ Ext s s2 ∧ TotPres s s2
      ∧ ∃ rrows grows2, ApplyRows s2 wrows rrows
          ∧ ApplyRows s2 grows grows2 ∧ grows2.Perm rrows)
    ∧ (∀ s wargs gargs s2, GoodS s →
      (∀ t ∈ wargs, noneFree t = true ∧ wf t = true) →
      (∀ t ∈ gargs, noneFree t = true ∧ wf t = true) →
      unifyListF K s wargs gargs = Except.ok s2 →
      GoodS s2 ∧ Ext s s2 ∧ TotPres s s2
      ∧ ∃ rl, ApplyList s2 wargs rl ∧ ApplyList s2 gargs rl) := by
  intro K
  induction K with
  | zero =>
    refine ⟨?_, ?_, ?_⟩
    · intro s a b s2 _ _ _ _ _ hok
      exact (except_error_ne_ok hok).elim
    · intro s wrows grows s2 _ _ _ hok
      exact (except_error_ne_ok hok).elim
    · intro s wargs gargs s2 _ _ _ hok
      exact (except_error_ne_ok hok).elim
  | succ k ih =>
    obtain ⟨ihU, ihR, ihL⟩ := ih
    refine ⟨?_, ?_, ?_⟩
    · intro s a b s2 hG hna hwa hnb hwb hok
      rw [unifyF] at hok
      cases hw : applyO k s a with
      | none =>
        rw [hw] at hok
        exact (except_error_ne_ok hok).elim
      | some w =>
        rw [hw] at hok
        cases hg : applyO k s b with
        | none =>
          rw [hg] at hok
          exact (except_error_ne_ok hok).elim
        | some g =>
          rw [hg] at hok
          have hnw := (applyO_noneFree k s hG).1 a w hw hna
          have hww := (applyO_wf k s hG).1 a w hw hwa
          have hng := (applyO_noneFree k s hG).1 b g hg hnb
          have hwg := (applyO_wf k s hG).1 b g hg hwb
          have hsw := (applyO_normal k s).1 a w hw
          have hsg := (applyO_normal k s).1 b g hg
          have hAw : Apply s a w := ⟨k, hw⟩
          have hAg : Apply s b g := ⟨k, hg⟩
          cases w with
          | none => simp [noneFree] at hnw
          | boundVar n =>
            cases g with
            | none => simp [noneFree] at hng
            | boundVar m =>
              have hok2 : (if n = m then (Except.ok s : Except UnifyError Subst)
                  else .error .headMismatch) = .ok s2 := hok
              by_cases h : n = m
              · rw [if_pos h] at hok2
                have hs := except_ok_inj hok2
                subst hs
                subst h
                exact ⟨hG, Ext_refl s, TotPres_refl s,
                  lift_common (Ext_refl s) hAw hAg
                    ⟨.boundVar n, Apply_of_SNormal hsw, Apply_of_SNormal hsg, hsw⟩⟩
              · rw [if_neg h] at hok2
                exact (except_error_ne_ok hok2).elim
            | metaVar mv =>
              have hu : Subst.getSolved s mv = Option.none := hsg mv (by simp [mvars])
              obtain ⟨hG2, hExt, hTot, r, hr1, hr2, hrn⟩ :=
                unifyMv_sound s mv _ s2 hG hu hsw hnw hww hok
              exact ⟨hG2, hExt, hTot, lift_common hExt hAw hAg ⟨r, hr2, hr1, hrn⟩⟩
            | fixedVar m => exact (except_error_ne_ok hok).elim
            | record grows => exact (except_error_ne_ok hok).elim
            | con gargs gsym => exact (except_error_ne_ok hok).elim
            | fn gp gr => exact (except_error_ne_ok hok).elim
          | metaVar mv =>
            have hu : Subst.getSolved s mv = Option.none := hsw mv (by simp [mvars])
            cases g
            case none => simp [noneFree] at hng
            all_goals
              obtain ⟨hG2, hExt, hTot, hpack⟩ :=
                unifyMv_sound s mv _ s2 hG hu hsg hng hwg hok
            all_goals
              exact ⟨hG2, hExt, hTot, lift_common hExt hAw hAg hpack⟩
          | fixedVar n =>
            cases g with
            | none => simp [noneFree] at hng
            | fixedVar m =>
              have hok2 : (if n = m then (Except.ok s : Except UnifyError Subst)
                  else .error .headMismatch) = .ok s2 := hok
              by_cases h : n = m
              · rw [if_pos h] at hok2
                have hs := except_ok_inj hok2
                subst hs
                subst h
                exact ⟨hG, Ext_refl s, TotPres_refl s,
                  lift_common (Ext_refl s) hAw hAg
                    ⟨.fixedVar n, Apply_of_SNormal hsw, Apply_of_SNormal hsg, hsw⟩⟩
              · rw [if_neg h] at hok2
                exact (except_error_ne_ok hok2).elim
            | metaVar mv =>
              have hu : Subst.getSolved s mv = Option.none := hsg mv (by simp [mvars])
              obtain ⟨hG2, hExt, hTot, r, hr1, hr2, hrn⟩ :=
                unifyMv_sound s mv _ s2 hG hu hsw hnw hww hok
              exact ⟨hG2, hExt, hTot, lift_common hExt hAw hAg ⟨r, hr2, hr1, hrn⟩⟩
            | boundVar m => exact (except_error_ne_ok hok).elim
            | record grows => exact (except_error_ne_ok hok).elim
            | con gargs gsym => exact (except_error_ne_ok hok).elim
            | fn gp gr => exact (except_error_ne_ok hok).elim
          | record wrows =>
            cases g with
            | none => simp [noneFree] at hng
            | metaVar mv =>
              have hu : Subst.getSolved s mv = Option.none := hsg mv (by simp [mvars])
              obtain ⟨hG2, hExt, hTot, r, hr1, hr2, hrn⟩ :=
                unifyMv_sound s mv _ s2 hG hu hsw hnw hww hok
              exact ⟨hG2, hExt, hTot, lift_common hExt hAw hAg ⟨r, hr2, hr1, hrn⟩⟩
            | record grows =>
              have hok2 : unifyRowsF k s wrows grows = .ok s2 := hok
              simp only [noneFree] at hnw hng
              simp only [wf, Bool.and_eq_true] at hww hwg
              have hWv : ∀ p ∈ wrows, noneFree p.2 = true ∧ wf p.2 = true :=
                fun p hp => ⟨(noneFreeRows_iff wrows).mp hnw p hp,
                  (wfRows_iff wrows).mp hww.2 p hp⟩
              have hGv : ∀ p ∈ grows, noneFree p.2 = true ∧ wf p.2 = true :=
                fun p hp => ⟨(noneFreeRows_iff grows).mp hng p hp,
                  (wfRows_iff grows).mp hwg.2 p hp⟩
              obtain ⟨hG2, hExt, hTot, rrows, grows2, hAr, hAg2, hperm⟩ :=
                ihR s wrows grows s2 hG hWv hGv hok2
              obtain ⟨kr, hkr⟩ := hAr
              obtain ⟨kg, hkg⟩ := hAg2
              have hsr : sortedKeys rrows = true := by
                rw [sortedKeys_of_labels_eq rrows wrows
                  (applyRowsO_labels kr s2 wrows rrows hkr)]
                exact hww.1
              have hsg2 : sortedKeys grows2 = true := by
                rw [sortedKeys_of_labels_eq grows2 grows
                  (applyRowsO_labels kg s2 grows grows2 hkg)]
                exact hwg.1
              have heq : grows2 = rrows := eq_of_perm_sortedKeys hsg2 hsr hperm
              refine ⟨hG2, hExt, hTot,
                lift_common hExt hAw hAg ⟨.record rrows, ?_, ?_, ?_⟩⟩
              · exact Apply_record ⟨kr, hkr⟩
              · rw [← heq]
                exact Apply_record ⟨kg, hkg⟩
              · exact SNormal_record.mpr ((applyO_normal kr s2).2.1 wrows rrows hkr)
            | boundVar m => exact (except_error_ne_ok hok).elim
            | fixedVar m => exact (except_error_ne_ok hok).elim
            | con gargs gsym => exact (except_error_ne_ok hok).elim
            | fn gp gr => exact (except_error_ne_ok hok).elim
          | con wargs wsym =>
            cases g with
            | none => simp [noneFree] at hng
            | metaVar mv =>
              have hu : Subst.getSolved s mv = Option.none := hsg mv (by simp [mvars])
              obtain ⟨hG2, hExt, hTot, r, hr1, hr2, hrn⟩ :=
                unifyMv_sound s mv _ s2 hG hu hsw hnw hww hok
              exact ⟨hG2, hExt, hTot, lift_common hExt hAw hAg ⟨r, hr2, hr1, hrn⟩⟩
            | con gargs gsym =>
              have hok2 : (if wsym = gsym then
                  (if wargs.length = gargs.length then unifyListF k s wargs gargs
                   else Except.error UnifyError.bug)
                  else Except.error UnifyError.headMismatch) = .ok s2 := hok
              by_cases hsym : wsym = gsym
              · rw [if_pos hsym] at hok2
                by_cases hlen : wargs.length = gargs.length
                · rw [if_pos hlen] at hok2
                  simp only [noneFree] at hnw hng
                  simp only [wf] at hww hwg
                  have hWv : ∀ t ∈ wargs, noneFree t = true ∧ wf t = true :=
                    fun t ht => ⟨(noneFreeList_iff wargs).mp hnw t ht,
                      (wfList_iff wargs).mp hww t ht⟩
                  have hGv : ∀ t ∈ gargs, noneFree t = true ∧ wf t = true :=
                    fun t ht => ⟨(noneFreeList_iff gargs).mp hng t ht,
                      (wfList_iff gargs).mp hwg t ht⟩
                  obtain ⟨hG2, hExt, hTot, rl, hAl, hAl2⟩ :=
                    ihL s wargs gargs s2 hG hWv hGv hok2
                  obtain ⟨kl, hkl⟩ := hAl
                  subst hsym
                  refine ⟨hG2, hExt, hTot,
                    lift_common hExt hAw hAg
                      ⟨.con rl wsym, Apply_con ⟨kl, hkl⟩, Apply_con hAl2, ?_⟩⟩
                  exact SNormal_con.mpr ((applyO_normal kl s2).2.2 wargs rl hkl)
                · rw [if_neg hlen] at hok2
                  exact (except_error_ne_ok hok2).elim
              · rw [if_neg hsym] at hok2
                exact (except_error_ne_ok hok2).elim
            | boundVar m => exact (except_error_ne_ok hok).elim
            | fixedVar m => exact (except_error_ne_ok hok).elim
            | record grows => exact (except_error_ne_ok hok).elim
            | fn gp gr => exact (except_error_ne_ok hok).elim
          | fn wp wr =>
            cases g with
            | none => simp [noneFree] at hng
            | metaVar mv =>
              have hu : Subst.getSolved s mv = Option.none := hsg mv (by simp [mvars])
              obtain ⟨hG2, hExt, hTot, r, hr1, hr2, hrn⟩ :=
                unifyMv_sound s mv _ s2 hG hu hsw hnw hww hok
              exact ⟨hG2, hExt, hTot, lift_common hExt hAw hAg ⟨r, hr2, hr1, hrn⟩⟩
            | fn gp gr =>
              simp only [noneFree, Bool.and_eq_true] at hnw hng
              simp only [wf, Bool.and_eq_true] at hww hwg
              have hok2 : Except.bind (unifyF k s wp gp)
                  (fun s1 => unifyF k s1 wr gr) = Except.ok s2 := hok
              cases h1 : unifyF k s wp gp with
              | error e =>
                rw [h1] at hok2
                exact (except_error_ne_ok hok2).elim
              | ok s1 =>
                rw [h1] at hok2
                have hok3 : unifyF k s1 wr gr = .ok s2 := hok2
                obtain ⟨hG1, hExt1, hTot1, r1, hr1w, hr1g, hr1n⟩ :=
                  ihU s wp gp s1 hG hnw.1 hww.1 hng.1 hwg.1 h1
                obtain ⟨hG2, hExt2, hTot2, r2, hr2w, hr2g, hr2n⟩ :=
                  ihU s1 wr gr s2 hG1 hnw.2 hww.2 hng.2 hwg.2 hok3
                obtain ⟨X, hXw, hXg, hXn⟩ := common_head hExt2 hTot2 hr1w hr1g hr1n
                exact ⟨hG2, Ext_trans hExt1 hExt2, TotPres_trans hTot1 hTot2,
                  lift_common (Ext_trans hExt1 hExt2) hAw hAg
                    ⟨.fn X r2, Apply_fn hXw hr2w, Apply_fn hXg hr2g,
                      SNormal_fn.mpr ⟨hXn, hr2n⟩⟩⟩
            | boundVar m => exact (except_error_ne_ok hok).elim
            | fixedVar m => exact (except_error_ne_ok hok).elim
            | record grows => exact (except_error_ne_ok hok).elim
            | con gargs gsym => exact (except_error_ne_ok hok).elim
    · intro s wrows grows s2 hG hWv hGv hok
      cases wrows with
      | nil =>
        have hok2 : (if grows.isEmpty then (Except.ok s : Except UnifyError Subst)
            else .error .headMismatch) = .ok s2 := hok
        by_cases hge : grows.isEmpty = true
        · rw [if_pos hge] at hok2
          have hs := except_ok_inj hok2
          subst hs
          have hgnil : grows = [] := by
            cases grows with
            | nil => rfl
            | cons q qs => simp [List.isEmpty] at hge
          subst hgnil
          exact ⟨hG, Ext_refl s, TotPres_refl s, [], [], ⟨1, rfl⟩, ⟨1, rfl⟩,
            List.Perm.nil⟩
        · rw [if_neg hge] at hok2
          exact (except_error_ne_ok hok2).elim
      | cons p rest =>
        cases hrm : removeKey grows p.1 with
        | none =>
          rw [unifyRowsF, hrm] at hok
          exact (except_error_ne_ok hok).elim
        | some q =>
          rw [unifyRowsF, hrm] at hok
          have hok2 : Except.bind (unifyF k s p.2 q.1)
              (fun s1 => unifyRowsF k s1 rest q.2) = Except.ok s2 := hok
          cases h1 : unifyF k s p.2 q.1 with
          | error e =>
            rw [h1] at hok2
            exact (except_error_ne_ok hok2).elim
          | ok s1 =>
            rw [h1] at hok2
            have hok3 : unifyRowsF k s1 rest q.2 = .ok s2 := hok2
            obtain ⟨pre, post, hgrows, hrest⟩ := removeKey_split grows p.1 q.1 q.2 hrm
            have hp2 := hWv p (List.mem_cons_self p rest)
            have hqmem : (p.1, q.1) ∈ grows := by
              rw [hgrows]
              simp
            have hq2 := hGv (p.1, q.1) hqmem
            have hWrest : ∀ x ∈ rest, noneFree x.2 = true ∧ wf x.2 = true :=
              fun x hx => hWv x (List.mem_cons_of_mem p hx)
            have hGrest : ∀ x ∈ q.2, noneFree x.2 = true ∧ wf x.2 = true := by
              intro x hx
              apply hGv
              rw [hgrows]
              rw [hrest] at hx
              rcases List.mem_append.mp hx with h | h
              · exact List.mem_append.mpr (Or.inl h)
              · exact List.mem_append.mpr (Or.inr (List.mem_cons_of_mem _ h))
            obtain ⟨hG1, hExt1, hTot1, r1, hr1w, hr1g, hr1n⟩ :=
              ihU s p.2 q.1 s1 hG hp2.1 hp2.2 hq2.1 hq2.2 h1
            obtain ⟨hG2, hExt2, hTot2, rrest, grest2, hArest, hAgrest, hperm⟩ :=
              ihR s1 rest q.2 s2 hG1 hWrest hGrest hok3
            obtain ⟨X, hXw, hXg, hXn⟩ := common_head hExt2 hTot2 hr1w hr1g hr1n
            refine ⟨hG2, Ext_trans hExt1 hExt2, TotPres_trans hTot1 hTot2, ?_⟩
            obtain ⟨kg, hkg⟩ := hAgrest
            have F := applyRowsO_forall2 kg s2 q.2 grest2 hkg
            rw [hrest] at F
            obtain ⟨m1, m2, hm, F1, F2⟩ := forall2_append_split F
            refine ⟨(p.1, X) :: rrest, m1 ++ (p.1, X) :: m2, ?_, ?_, ?_⟩
            · exact applyRowsO_cons hXw hArest
            · apply applyRowsO_of_forall2
              rw [hgrows]
              exact forall2_append F1 (List.Forall₂.cons ⟨rfl, hXg⟩ F2)
            · have hpm1 : (m1 ++ (p.1, X) :: m2).Perm ((p.1, X) :: (m1 ++ m2)) :=
                List.perm_middle
              have hpm2 := List.Perm.cons (p.1, X) hperm
              rw [hm] at hpm2
              exact hpm1.trans hpm2
    · intro s wargs gargs s2 hG hWv hGv hok
      cases wargs with
      | nil =>
        cases gargs with
        | nil =>
          have hs := except_ok_inj
            (show (Except.ok s : Except UnifyError Subst) = .ok s2 from hok)
          subst hs
          exact ⟨hG, Ext_refl s, TotPres_refl s, [], ⟨1, rfl⟩, ⟨1, rfl⟩⟩
        | cons g gs => exact (except_error_ne_ok hok).elim
      | cons w ws =>
        cases gargs with
        | nil => exact (except_error_ne_ok hok).elim
        | cons g gs =>
          have hok2 : Except.bind (unifyF k s w g)
              (fun s1 => unifyListF k s1 ws gs) = Except.ok s2 := hok
          cases h1 : unifyF k s w g with
          | error e =>
            rw [h1] at hok2
            exact (except_error_ne_ok hok2).elim
          | ok s1 =>
            rw [h1] at hok2
            have hok3 : unifyListF k s1 ws gs = .ok s2 := hok2
            have hw2 := hWv w (List.mem_cons_self w ws)
            have hg2 := hGv g (List.mem_cons_self g gs)
            have hWrest : ∀ t ∈ ws, noneFree t = true ∧ wf t = true :=
              fun t ht => hWv t (List.mem_cons_of_mem w ht)
            have hGrest : ∀ t ∈ gs, noneFree t = true ∧ wf t = true :=
              fun t ht => hGv t (List.mem_cons_of_mem g ht)
            obtain ⟨hG1, hExt1, hTot1, r1, hr1w, hr1g, hr1n⟩ :=
              ihU s w g s1 hG hw2.1 hw2.2 hg2.1 hg2.2 h1
            obtain ⟨hG2, hExt2, hTot2, rl, hAws, hAgs⟩ :=
              ihL s1 ws gs s2 hG1 hWrest hGrest hok3
            obtain ⟨X, hXw, hXg, hXn⟩ := common_head hExt2 hTot2 hr1w hr1g hr1n
            exact ⟨hG2, Ext_trans hExt1 hExt2, TotPres_trans hTot1 hTot2,
              X :: rl, applyListO_cons hXw hAws, applyListO_cons hXg hAgs⟩

/-- C2 amended: for None-free, well-formed (strictly-key-sorted record
rows, the BTreeMap invariant) types a and b, under a substitution whose
solutions are likewise None-free and well-formed, if unify_ succeeds then
applying the resulting substitution to a and to b yields the same type:
both applications are defined and every pair of results is structurally
equal.  For types containing Ty::None the property fails
(unify_none_not_sound): unify_ accepts None against anything without
solving, so the applied results can differ. -/
theorem unify_sound (K : Nat) (s : Subst) (a b : Ty) (s2 : Subst)
    (hG : GoodS s)
    (hna : noneFree a = true) (hwa : wf a = true)
    (hnb : noneFree b = true) (hwb : wf b = true)
    (hok : unifyF K s a b = Except.ok s2) :
    (∃ r, Apply s2 a r ∧ Apply s2 b r)
    ∧ ∀ ra rb, Apply s2 a ra → Apply s2 b rb → ra = rb := by
  obtain ⟨_, _, _, r, hra, hrb, _⟩ :=
    (unify_sound_main K).1 s a b s2 hG hna hwa hnb hwb hok
  refine ⟨⟨r, hra, hrb⟩, ?_⟩
  intro ra rb h1 h2
  exact (Apply_unique h1 hra).trans (Apply_unique h2 hrb).symm

/-- Witness for C2 amended: unifying a function type with a shared meta
variable against one pinning its argument solves both meta variables, and
both sides apply to the same concrete type. -/
theorem unify_sound_witness :
    unifyF 10 [] (.fn (.metaVar 0) (.metaVar 0)) (.fn (.con [] 1) (.metaVar 1)) =
      Except.ok [(0, .solved (.con [] 1)), (1, .solved (.con [] 1))]
    ∧ noneFree (Ty.fn (.metaVar 0) (.metaVar 0)) = true
    ∧ wf (Ty.fn (.metaVar 0) (.metaVar 0)) = true
    ∧ noneFree (Ty.fn (.con [] 1) (.metaVar 1)) = true
    ∧ wf (Ty.fn (.con [] 1) (.metaVar 1)) = true
    ∧ applyO 10 [(0, .solved (.con [] 1)), (1, .solved (.con [] 1))]
        (.fn (.metaVar 0) (.metaVar 0)) = some (.fn (.con [] 1) (.con [] 1))
    ∧ applyO 10 [(0, .solved (.con [] 1)), (1, .solved (.con [] 1))]
        (.fn (.con [] 1) (.metaVar 1)) = some (.fn (.con [] 1) (.con [] 1))
    ∧ ∀ ra rb,
        Apply [(0, .solved (.con [] 1)), (1, .solved (.con [] 1))]
          (.fn (.metaVar 0) (.metaVar 0)) ra →
        Apply [(0, .solved (.con [] 1)), (1, .solved (.con [] 1))]
          (.fn (.con [] 1) (.metaVar 1)) rb → ra = rb :=
  ⟨rfl, rfl, rfl, rfl, rfl, rfl, rfl,
    (unify_sound 10 [] (.fn (.metaVar 0) (.metaVar 0))
      (.fn (.con [] 1) (.metaVar 1))
      [(0, .solved (.con [] 1)), (1, .solved (.con [] 1))]
      (fun mv t h => by rw [Subst.getSolved_nil] at h; cases h)
      rfl rfl rfl rfl rfl).2⟩
